import Mathlib

/-!
Verification of `src/pounders/solve_auxiliary.py` (a POUNDERS-style
derivative-free trust-region core) against its natural-language specification.

The Python source is shallowly embedded over an arbitrary linear ordered field
`K` (the mathematical model of the floating-point scalars).  numpy arrays are
modelled as total functions `ℕ → K` / `ℕ → ℕ → K` together with the explicit
dimensions the source passes around; in-place writes become `Function.update`.
The external numerical primitives used by the source — `scipy.linalg.qr_multiply`
(the spec's "orthogonal-factorization capability"), `np.linalg.svd` and
`np.linalg.solve` — are abstracted as oracle parameters (`qrQ`, `svals`,
`linSolve`), as is the square root used inside `np.linalg.norm`; every theorem
below quantifies over these oracles, so it holds in particular for the real
ones.  Fallible numpy operations (out-of-bounds writes, shape-mismatched
assignments, use of a possibly-undefined local) are embedded in `Except` with
an error value at exactly the program point where numpy/scipy would raise.
-/

namespace Pounders

open Matrix

variable {K : Type*} [LinearOrderedField K]

/-- Embedding of `np.linalg.norm(v[a:b])`: square root of the sum of squares of the entries
of `v` on the index range `[a, b)`.  `sqrt` is the abstract square-root
oracle. -/
def vnorm (sqrt : K → K) (v : ℕ → K) (a b : ℕ) : K :=
  sqrt (∑ j ∈ Finset.Ico a b, v j * v j)

/-- Row-update of a matrix-as-function: `A[i, :] = r`. -/
def setRow (A : ℕ → ℕ → K) (i : ℕ) (r : ℕ → K) : ℕ → ℕ → K :=
  fun i' j => if i' = i then r j else A i' j

/-- Column-update of a matrix-as-function: `A[:, j] = c`. -/
def setCol (A : ℕ → ℕ → K) (j : ℕ) (c : ℕ → K) : ℕ → ℕ → K :=
  fun i j' => if j' = j then c i else A i j'

/-- Embedding of `compute_fnorm(criterion_value)`: `np.dot(criterion_value, criterion_value)`
over the `nobs` entries of the residual vector. -/
def compute_fnorm (nobs : ℕ) (criterion_value : ℕ → K) : K :=
  ∑ j ∈ Finset.range nobs, criterion_value j * criterion_value j

/-- Embedding of `calc_res(fdiff, fmin, hess)`: `jac_res = np.dot(fdiff, fmin)`,
`hess_res = np.dot(fdiff, fdiff.T) + np.sum(fmin_reshaped * hess, axis=0)`,
written entrywise exactly as the numpy contractions read.
`fdiff` has shape `(n, nobs)`, `hess` has shape `(nobs, n, n)`. -/
def calc_res {n nobs : ℕ} (fdiff : Matrix (Fin n) (Fin nobs) K) (fmin : Fin nobs → K)
    (hess : Fin nobs → Matrix (Fin n) (Fin n) K) :
    (Fin n → K) × Matrix (Fin n) (Fin n) K :=
  (fun i => ∑ k, fdiff i k * fmin k,
   Matrix.of fun i j => (∑ k, fdiff i k * fdiff j k) + ∑ k, fmin k * hess k i j)

/-- Claim C6: for every `fdiff` of shape `(n, nobs)` (per-component gradients
stacked so that `fdiff = Jᵀ`), every `fmin` of length `nobs` and every Hessian
array `hess` of shape `(nobs, n, n)`, `calc_res` returns `jac_res = Jᵀ·fmin`
and `hess_res = Jᵀ·J + ∑ₖ fmin k • hess k`; in particular with `hess` all zero,
`fdiff` the 2×2 identity and `fmin = [1, 2]` it returns `jac_res = [1, 2]` and
`hess_res` equal to the identity, with `hess_res` independent of `fmin` in that
zero-Hessian case. -/
theorem calc_res_gauss_newton :
    (∀ (n nobs : ℕ) (J : Matrix (Fin nobs) (Fin n) K) (fmin : Fin nobs → K)
        (hess : Fin nobs → Matrix (Fin n) (Fin n) K),
      (calc_res Jᵀ fmin hess).1 = Jᵀ.mulVec fmin ∧
      (calc_res Jᵀ fmin hess).2 = Jᵀ * J + ∑ k, fmin k • hess k) ∧
    (calc_res (1 : Matrix (Fin 2) (Fin 2) K) ![1, 2] 0).1 = ![1, 2] ∧
    (calc_res (1 : Matrix (Fin 2) (Fin 2) K) ![1, 2] 0).2 = 1 ∧
    (∀ fmin' : Fin 2 → K,
      (calc_res (1 : Matrix (Fin 2) (Fin 2) K) fmin' 0).2 =
      (calc_res (1 : Matrix (Fin 2) (Fin 2) K) ![1, 2] 0).2) := by
  refine ⟨fun n nobs J fmin hess => ⟨?_, ?_⟩, ?_, ?_, ?_⟩
  · funext i
    simp [calc_res, Matrix.mulVec, dotProduct]
  · ext i j
    simp [calc_res, Matrix.mul_apply, Matrix.transpose_apply, Matrix.sum_apply,
      Matrix.smul_apply, smul_eq_mul]
  · funext i
    fin_cases i <;>
      simp [calc_res, Fin.sum_univ_two, Matrix.one_apply]
  · ext i j
    fin_cases i <;> fin_cases j <;>
      simp [calc_res, Fin.sum_univ_two, Matrix.one_apply]
  · intro fmin'
    ext i j
    simp [calc_res]

/-! ### `_evaluate_phi`

The source allocates `phi = np.zeros(n*(n+1)/2)` and fills it with a write
cursor `j`: for each `i < n` it writes `0.5*x[i]*x[i]`, then
`x[i]*x[k]/sqrt(2)` for each `k` in `range(i+1, n)`.  We embed the two loops
with the explicit cursor and read the array back out as a list. -/

/-- Inner loop of `_evaluate_phi`: `for k in range(i+1, n): phi[j] = x[i]*x[k]/sqrt(2); j += 1`,
over an explicit list of `k`-values, acting on the pair (array, cursor). -/
def phiInner (sqrt : K → K) (x : ℕ → K) (i : ℕ) :
    List ℕ → (ℕ → K) × ℕ → (ℕ → K) × ℕ
  | [], s => s
  | k :: ks, s =>
      phiInner sqrt x i ks (Function.update s.1 s.2 (x i * x k / sqrt 2), s.2 + 1)

/-- Outer loop of `_evaluate_phi`: `for i in range(n): phi[j] = 0.5*x[i]*x[i]; j += 1; <inner>`. -/
def phiOuter (sqrt : K → K) (x : ℕ → K) (n : ℕ) :
    List ℕ → (ℕ → K) × ℕ → (ℕ → K) × ℕ
  | [], s => s
  | i :: is, s =>
      phiOuter sqrt x n is
        (phiInner sqrt x i (List.range' (i + 1) (n - (i + 1)))
          (Function.update s.1 s.2 (0.5 * x i * x i), s.2 + 1))

/-- Embedding of `_evaluate_phi(x, n)`: run both loops on the zero array with cursor `0` and
read out the `n*(n+1)/2` entries. -/
def evaluate_phi (sqrt : K → K) (x : ℕ → K) (n : ℕ) : List K :=
  (List.range (n * (n + 1) / 2)).map
    (phiOuter sqrt x n (List.range n) (fun _ => 0, 0)).1

/-- Row `i` of the quadratic-feature vector as the spec words it (§4.4): the
diagonal entry `0.5·xᵢ²` followed by the off-diagonal entries `xᵢ·xⱼ/√2` for
`j` in `(i, n)`. -/
def phiRowSpec (sqrt : K → K) (x : ℕ → K) (n i : ℕ) : List K :=
  (0.5 * x i * x i) :: ((List.range' (i + 1) (n - (i + 1))).map fun k => x i * x k / sqrt 2)

/-- Spec-side description of `phi` (§4.4): the rows of `phiRowSpec`
concatenated in the order "diagonal, then following off-diagonals, per row". -/
def phi_spec (sqrt : K → K) (n : ℕ) (x : ℕ → K) : List K :=
  (List.range n).flatMap (phiRowSpec sqrt x n)

lemma phiInner_run (sqrt : K → K) (x : ℕ → K) (i : ℕ) (ks : List ℕ) :
    ∀ (phi : ℕ → K) (j : ℕ),
      (phiInner sqrt x i ks (phi, j)).2 = j + ks.length ∧
      (∀ t, t < j → (phiInner sqrt x i ks (phi, j)).1 t = phi t) ∧
      ∀ (m : ℕ) (hm : m < ks.length),
        (phiInner sqrt x i ks (phi, j)).1 (j + m) = x i * x ks[m] / sqrt 2 := by
  induction ks with
  | nil => simp [phiInner]
  | cons k ks ih =>
      intro phi j
      refine ⟨?_, ?_, ?_⟩
      · rw [phiInner, (ih _ (j + 1)).1]
        simp only [List.length_cons]
        omega
      · intro t ht
        rw [phiInner, (ih _ (j + 1)).2.1 t (by omega)]
        exact Function.update_noteq (by omega) _ phi
      · intro m hm
        match m with
        | 0 =>
            rw [phiInner]
            have h := (ih (Function.update phi j (x i * x k / sqrt 2)) (j + 1)).2.1 (j + 0)
              (by omega)
            rw [h]
            simp
        | m' + 1 =>
            rw [phiInner]
            have h := (ih (Function.update phi j (x i * x k / sqrt 2)) (j + 1)).2.2 m'
              (by simpa using hm)
            have harith : j + (m' + 1) = j + 1 + m' := by omega
            rw [harith, h]
            simp

lemma phiOuter_run (sqrt : K → K) (x : ℕ → K) (n : ℕ) (is : List ℕ) :
    ∀ (phi : ℕ → K) (j : ℕ),
      (phiOuter sqrt x n is (phi, j)).2 =
        j + (is.flatMap (phiRowSpec sqrt x n)).length ∧
      (∀ t, t < j → (phiOuter sqrt x n is (phi, j)).1 t = phi t) ∧
      ∀ (m : ℕ), m < (is.flatMap (phiRowSpec sqrt x n)).length →
        (phiOuter sqrt x n is (phi, j)).1 (j + m) =
          (is.flatMap (phiRowSpec sqrt x n)).getD m 0 := by
  induction is with
  | nil => simp [phiOuter]
  | cons i is ih =>
      intro phi j
      set ks : List ℕ := List.range' (i + 1) (n - (i + 1)) with hks
      set d : K := 0.5 * x i * x i with hd
      set phi1 : ℕ → K := Function.update phi j d with hphi1
      obtain ⟨hin2, hinlo, hinent⟩ := phiInner_run sqrt x i ks phi1 (j + 1)
      set inner := phiInner sqrt x i ks (phi1, j + 1) with hinner
      have hrow : (phiRowSpec sqrt x n i).length = 1 + ks.length := by
        simp only [phiRowSpec, List.length_cons, List.length_map, List.length_range', hks]
        omega
      have hstep : phiOuter sqrt x n (i :: is) (phi, j) = phiOuter sqrt x n is inner := by
        rw [phiOuter]
      obtain ⟨hih2, hihlo, hihent⟩ := ih inner.1 inner.2
      have hpair : (inner.1, inner.2) = inner := rfl
      rw [hpair] at hih2 hihlo hihent
      have hflat : ((i :: is).flatMap (phiRowSpec sqrt x n)) =
          phiRowSpec sqrt x n i ++ is.flatMap (phiRowSpec sqrt x n) := by
        simp
      refine ⟨?_, ?_, ?_⟩
      · rw [hstep, hih2, hin2, hflat]
        simp only [List.length_append, hrow]
        omega
      · intro t ht
        rw [hstep, hihlo t (by omega), hinlo t (by omega)]
        exact Function.update_noteq (by omega) _ phi
      · intro m hm
        rw [hflat] at hm
        simp only [List.length_append, hrow] at hm
        rw [hstep]
        by_cases hcase : m < 1 + ks.length
        · -- the entry lies in row `i`, already written before the recursive call
          have hlt : j + m < inner.2 := by rw [hin2]; omega
          rw [hihlo (j + m) hlt]
          rw [hflat, List.getD_append _ _ _ _ (by omega : m < (phiRowSpec sqrt x n i).length)]
          match m with
          | 0 =>
              rw [hinlo (j + 0) (by omega)]
              simp [phiRowSpec, hphi1]
          | m' + 1 =>
              have h := hinent m' (by omega)
              have harith : j + (m' + 1) = j + 1 + m' := by omega
              have hm' : m' < ks.length := by omega
              have hmap : m' < ((List.range' (i + 1) (n - (i + 1))).map
                  fun k => x i * x k / sqrt 2).length := by
                simpa [hks] using hm'
              rw [harith, h]
              simp only [phiRowSpec, List.getD_cons_succ,
                List.getD_eq_getElem _ 0 hmap, List.getElem_map]
        · -- the entry lies in a later row, written by the recursive call
          have hm2 : m - (1 + ks.length) < (is.flatMap (phiRowSpec sqrt x n)).length := by
            omega
          have h := hihent (m - (1 + ks.length)) hm2
          have harith : j + m = inner.2 + (m - (1 + ks.length)) := by
            rw [hin2]; omega
          rw [harith, h, hflat, List.getD_append_right _ _ _ _
            (by rw [hrow]; omega : (phiRowSpec sqrt x n i).length ≤ m), hrow]

lemma list_sum_map_range (g : ℕ → ℕ) :
    ∀ n : ℕ, ((List.range n).map g).sum = ∑ i ∈ Finset.range n, g i := by
  intro n
  induction n with
  | zero => simp
  | succ k ih => rw [List.range_succ, Finset.sum_range_succ, ← ih]; simp

lemma sum_range_sub_eq (n : ℕ) : ∑ i ∈ Finset.range n, (n - i) = n * (n + 1) / 2 := by
  have h1 : ∑ j ∈ Finset.range n, (n - 1 - j + 1) = ∑ j ∈ Finset.range n, (j + 1) :=
    Finset.sum_range_reflect (fun j => j + 1) n
  have h2 : ∀ j ∈ Finset.range n, n - j = n - 1 - j + 1 := by
    intro j hj
    simp only [Finset.mem_range] at hj
    omega
  rw [Finset.sum_congr rfl h2, h1, Finset.sum_add_distrib]
  have h3 := Finset.sum_range_id_mul_two n
  have h4 : n * (n + 1) = n * (n - 1) + 2 * n := by
    cases n with
    | zero => simp
    | succ m =>
        simp only [Nat.succ_sub_one]
        ring
  simp only [Finset.sum_const, Finset.card_range, smul_eq_mul, mul_one]
  omega

lemma phi_spec_length (sqrt : K → K) (n : ℕ) (x : ℕ → K) :
    (phi_spec sqrt n x).length = n * (n + 1) / 2 := by
  rw [phi_spec, List.length_flatMap, list_sum_map_range]
  rw [← sum_range_sub_eq n]
  refine Finset.sum_congr rfl ?_
  intro i hi
  simp only [Finset.mem_range] at hi
  simp [phiRowSpec]
  omega

lemma evaluate_phi_eq_spec (sqrt : K → K) (x : ℕ → K) (n : ℕ) :
    evaluate_phi sqrt x n = phi_spec sqrt n x := by
  obtain ⟨-, -, hent⟩ := phiOuter_run sqrt x n (List.range n) (fun _ => 0) 0
  apply List.ext_getElem
  · simp [evaluate_phi, phi_spec_length]
  · intro m h1 h2
    simp only [evaluate_phi, List.getElem_map, List.getElem_range]
    simp only [phi_spec] at h2 ⊢
    have h := hent m h2
    rw [Nat.zero_add] at h
    rw [h, List.getD_eq_getElem _ 0 h2]

/-- Claim C8: for `n = 2` and `x = [2, 3]`, `_evaluate_phi` returns exactly
`[0.5·4, 2·3/√2, 0.5·9] = [2, 4.2426…, 4.5]`; in general it returns the
length-`n(n+1)/2` vector whose entries are `0.5·xᵢ²` for each `i` and
`xᵢ·xⱼ/√2` for each pair `i < j`, in diagonal-then-following-off-diagonals
order per row (`phi_spec`). -/
theorem evaluate_phi_entries (sqrt : K → K) :
    (∀ (n : ℕ) (x : ℕ → K),
        evaluate_phi sqrt x n = phi_spec sqrt n x ∧
        (evaluate_phi sqrt x n).length = n * (n + 1) / 2) ∧
    evaluate_phi sqrt (fun j => if j = 0 then 2 else 3) 2 =
      [2, 2 * 3 / sqrt 2, 4.5] := by
  constructor
  · intro n x
    exact ⟨evaluate_phi_eq_spec sqrt x n,
      by rw [evaluate_phi_eq_spec sqrt x n, phi_spec_length]⟩
  · rw [evaluate_phi_eq_spec]
    have h1 : List.range' (0 + 1) (2 - (0 + 1)) = [1] := by decide
    have h2 : List.range' (1 + 1) (2 - (1 + 1)) = ([] : List ℕ) := by decide
    simp only [phi_spec, List.range_succ, List.range_zero, List.nil_append,
      List.flatMap_cons, List.flatMap_nil, List.append_nil]
    unfold phiRowSpec
    norm_num

/-! ### History store, `_add_point`, `improve_model` -/

/-- The fixed capacity of the preallocated history arrays: `xhist`, `fhist`
and `fnorm` all have first dimension 1000 in the source (docstrings
`Shape (1000, n)` etc.), so the write `xhist[nhist] = ...` raises once
`nhist` reaches 1000.  The spec names this failure `HistoryExhausted`. -/
def historyCapacity : ℕ := 1000

/-- Failures of the embedded numpy/scipy operations: the history-capacity
overflow (spec: `HistoryExhausted`), a scipy/numpy shape mismatch
(`ValueError`), and use of a local variable that was never assigned
(`NameError`, possible for `Q_tmp`/`L` in `add_more_points`). -/
inductive PErr where
  | historyExhausted : PErr
  | dimMismatch : PErr
  | nameUndefined : PErr
deriving DecidableEq

/-- The history arrays and model-index bookkeeping threaded through
`_add_point` and `improve_model`. -/
structure Hist (K : Type*) where
  xhist : ℕ → ℕ → K
  fhist : ℕ → ℕ → K
  fnorm : ℕ → K
  model_indices : ℕ → ℕ
  mpoints : ℕ
  nhist : ℕ

/-- Embedding of `_add_point(xhist, fhist, fnorm, qtmp, model_indices, minindex, index,
mpoints, nhist, delta, criterion)`: write `xhist[nhist] = qtmp[:, index]`,
then `xhist[nhist, :] = delta * xhist[nhist, :] + xhist[minindex]`, evaluate
the criterion at the stored row, store residual and `compute_fnorm`, record `nhist` in
`model_indices[mpoints]` and bump both counters.  The first write is where
numpy raises when `nhist` has reached the capacity.  Also returns the newly
evaluated parameter vector. -/
def add_point (nobs : ℕ) (criterion : (ℕ → K) → ℕ → K) (qtmp : ℕ → ℕ → K)
    (minindex index : ℕ) (delta : K) (h : Hist K) :
    Except PErr (Hist K × (ℕ → K)) :=
  if h.nhist < historyCapacity then
    let xh1 := setRow h.xhist h.nhist fun t => qtmp t index
    let xh2 := setRow xh1 h.nhist fun t => delta * xh1 h.nhist t + xh1 minindex t
    let res := criterion (xh2 h.nhist)
    let fsum := compute_fnorm nobs res
    .ok (⟨xh2, setRow h.fhist h.nhist res, Function.update h.fnorm h.nhist fsum,
          Function.update h.model_indices h.mpoints h.nhist,
          h.mpoints + 1, h.nhist + 1⟩, xh2 h.nhist)
  else .error .historyExhausted

lemma add_point_run (nobs : ℕ) (criterion : (ℕ → K) → ℕ → K) (qtmp : ℕ → ℕ → K)
    (minindex index : ℕ) (delta : K) (h : Hist K)
    (hcap : h.nhist < 1000) (hmin : minindex < h.nhist) :
    add_point nobs criterion qtmp minindex index delta h =
      .ok (⟨setRow h.xhist h.nhist (fun t => delta * qtmp t index + h.xhist minindex t),
            setRow h.fhist h.nhist
              (criterion fun t => delta * qtmp t index + h.xhist minindex t),
            Function.update h.fnorm h.nhist
              (compute_fnorm nobs
                (criterion fun t => delta * qtmp t index + h.xhist minindex t)),
            Function.update h.model_indices h.mpoints h.nhist,
            h.mpoints + 1, h.nhist + 1⟩,
           fun t => delta * qtmp t index + h.xhist minindex t) := by
  rw [add_point, if_pos (by simpa [historyCapacity] using hcap)]
  have hne : minindex ≠ h.nhist := by omega
  have hrow : (setRow h.xhist h.nhist fun t => qtmp t index) minindex = h.xhist minindex := by
    funext t
    simp [setRow, hne]
  have hself : ∀ t, (setRow h.xhist h.nhist fun t' => qtmp t' index) h.nhist t = qtmp t index := by
    intro t
    simp [setRow]
  have hxh2 : (setRow (setRow h.xhist h.nhist fun t => qtmp t index) h.nhist
      fun t => delta * (setRow h.xhist h.nhist fun t' => qtmp t' index) h.nhist t +
        (setRow h.xhist h.nhist fun t' => qtmp t' index) minindex t) =
      setRow h.xhist h.nhist fun t => delta * qtmp t index + h.xhist minindex t := by
    funext a b
    simp only [setRow]
    by_cases hab : a = h.nhist <;> simp [hab, hne]
  have hval : (setRow h.xhist h.nhist
      (fun t => delta * qtmp t index + h.xhist minindex t)) h.nhist =
      fun t => delta * qtmp t index + h.xhist minindex t := by
    funext t
    simp [setRow]
  simp only [hxh2, hval]

/-- Claim C3: `_add_point` (History append) stores the evaluated point, its
residual vector and `fnorm = dot(residual, residual)` at the next free index
`nhist`, records that index in the model set and returns it (as the
incremented counter `nhist + 1`); when the fixed capacity 1000 is already
reached it fails with the fatal `HistoryExhausted` error. -/
theorem add_point_append (nobs : ℕ) (criterion : (ℕ → K) → ℕ → K)
    (qtmp : ℕ → ℕ → K) (minindex index : ℕ) (delta : K) (h : Hist K) :
    (h.nhist < 1000 → minindex < h.nhist →
      ∃ r : Hist K × (ℕ → K),
        add_point nobs criterion qtmp minindex index delta h = .ok r ∧
        r.2 = (fun t => delta * qtmp t index + h.xhist minindex t) ∧
        r.1.xhist h.nhist = r.2 ∧
        r.1.fhist h.nhist = criterion r.2 ∧
        r.1.fnorm h.nhist = compute_fnorm nobs (criterion r.2) ∧
        r.1.model_indices h.mpoints = h.nhist ∧
        r.1.mpoints = h.mpoints + 1 ∧
        r.1.nhist = h.nhist + 1) ∧
    (1000 ≤ h.nhist →
      add_point nobs criterion qtmp minindex index delta h = .error .historyExhausted) := by
  constructor
  · intro hcap hmin
    refine ⟨_, add_point_run nobs criterion qtmp minindex index delta h hcap hmin,
      rfl, ?_, ?_, ?_, ?_, rfl, rfl⟩
    · funext t
      simp [setRow]
    · funext t
      simp [setRow]
    · simp
    · simp
  · intro hcap
    rw [add_point, if_neg (by simp [historyCapacity]; omega)]

/-- State threaded through the `improve_model` scoring loop: the history
state, the (possibly sign-flipped) basis `qtmp`, the score array `work`, the
running argmin (`minvalue = none` models the initial `np.inf`), and the trace
of parameter vectors at which the external criterion has been evaluated. -/
structure ImpState (K : Type*) where
  hist : Hist K
  qtmp : ℕ → ℕ → K
  work : ℕ → K
  minindex_internal : ℕ
  minvalue : Option K
  calls : List (ℕ → K)

/-- Embedding of `dp = np.dot(qtmp[:, i], jac_res); if dp > 0: qtmp[:, i] *= -1`: the
column of `qtmp` used for direction `i`, after the sign-flip heuristic. -/
def impCol (n : ℕ) (jac_res : ℕ → K) (s : ImpState K) (i : ℕ) : ℕ → ℕ → K :=
  if 0 < ∑ t ∈ Finset.range n, s.qtmp t i * jac_res t
  then setCol s.qtmp i (fun t => -s.qtmp t i) else s.qtmp

/-- Embedding of `work[i] = np.dot(qtmp[:, i], jac_res + 0.5 * np.dot(hess_res, qtmp[:, i]))`:
the curvature-adjusted score of direction `i` (with the sign-flipped column). -/
def impScore (n : ℕ) (jac_res : ℕ → K) (hess_res : ℕ → ℕ → K) (s : ImpState K)
    (i : ℕ) : K :=
  ∑ t ∈ Finset.range n, impCol n jac_res s i t i *
    (jac_res t + 0.5 * ∑ u ∈ Finset.range n, hess_res t u * impCol n jac_res s i u i)

/-- Embedding of `(i == mpoints) or (work[i] < minvalue)`: whether the running argmin is
updated at direction `i` (`minvalue = none` is the initial `np.inf`, which
every comparison beats). -/
def impBetter (n : ℕ) (jac_res : ℕ → K) (hess_res : ℕ → ℕ → K) (s : ImpState K)
    (i : ℕ) : Bool :=
  (i == s.hist.mpoints) ||
    (match s.minvalue with
     | none => true
     | some m => decide (impScore n jac_res hess_res s i < m))

/-- The state after one scoring-loop iteration, before any `_add_point`
effect: sign-flipped `qtmp`, `work[i]` written, argmin updated. -/
def impNext (n : ℕ) (jac_res : ℕ → K) (hess_res : ℕ → ℕ → K) (s : ImpState K)
    (i : ℕ) : ImpState K :=
  ⟨s.hist, impCol n jac_res s i,
   Function.update s.work i (impScore n jac_res hess_res s i),
   if impBetter n jac_res hess_res s i then i else s.minindex_internal,
   if impBetter n jac_res hess_res s i then some (impScore n jac_res hess_res s i)
   else s.minvalue,
   s.calls⟩

/-- One iteration of `for i in range(mpoints, n)` in `improve_model`:
score the direction, update the argmin, and — when `addallpoints != 0` —
call `_add_point` for this direction. -/
def impStep (nobs n : ℕ) (criterion : (ℕ → K) → ℕ → K) (jac_res : ℕ → K)
    (hess_res : ℕ → ℕ → K) (minindex : ℕ) (delta : K) (addallpoints : ℕ)
    (s : ImpState K) (i : ℕ) : Except PErr (ImpState K) :=
  if addallpoints ≠ 0 then
    match add_point nobs criterion (impCol n jac_res s i) minindex i delta s.hist with
    | .error e => .error e
    | .ok (h1, xnew) =>
        .ok { impNext n jac_res hess_res s i with
              hist := h1, calls := s.calls ++ [xnew] }
  else
    .ok (impNext n jac_res hess_res s i)

/-- The `for i in range(mpoints, n)` loop of `improve_model`, over an explicit
index list. -/
def impLoop (nobs n : ℕ) (criterion : (ℕ → K) → ℕ → K) (jac_res : ℕ → K)
    (hess_res : ℕ → ℕ → K) (minindex : ℕ) (delta : K) (addallpoints : ℕ) :
    List ℕ → ImpState K → Except PErr (ImpState K)
  | [], s => .ok s
  | i :: is, s =>
      match impStep nobs n criterion jac_res hess_res minindex delta addallpoints s i with
      | .error e => .error e
      | .ok s1 => impLoop nobs n criterion jac_res hess_res minindex delta addallpoints is s1

/-- Embedding of `improve_model(...)`.  The first statement is
`qtmp, _ = qr_multiply(qmat, np.eye(3), mode="right")`: scipy demands
`np.eye(3).shape[1] == qmat.shape[0]`, i.e. `n = 3`, and raises `ValueError`
otherwise; on success `qtmp = eye(3) · Q = Q`, the orthogonal factor of
`qmat` (obtained from the abstract oracle `qrQ`).  Then the scoring loop runs
over the missing directions `[mpoints, n)`, and the criterion is evaluated
either at every missing direction (`addallpoints != 0`, inside the loop) or
once, at the best-scoring direction (`addallpoints == 0`, after the loop). -/
def improve_model (qrQ : ℕ → ℕ → (ℕ → ℕ → K) → ℕ → ℕ → K) (nobs : ℕ)
    (criterion : (ℕ → K) → ℕ → K) (jac_res : ℕ → K) (hess_res : ℕ → ℕ → K)
    (qmat : ℕ → ℕ → K) (minindex : ℕ) (addallpoints n : ℕ) (delta : K)
    (h : Hist K) : Except PErr (ImpState K) :=
  if n = 3 then
    match impLoop nobs n criterion jac_res hess_res minindex delta addallpoints
        (List.range' h.mpoints (n - h.mpoints))
        ⟨h, qrQ n n qmat, fun _ => 0, 0, none, []⟩ with
    | .error e => .error e
    | .ok s1 =>
        if addallpoints = 0 then
          match add_point nobs criterion s1.qtmp minindex s1.minindex_internal delta
              s1.hist with
          | .error e => .error e
          | .ok (h1, xnew) =>
              .ok ⟨h1, s1.qtmp, s1.work, s1.minindex_internal, s1.minvalue,
                   s1.calls ++ [xnew]⟩
        else .ok s1
  else .error .dimMismatch

section ImproveModelLemmas

variable (nobs n : ℕ) (criterion : (ℕ → K) → ℕ → K) (jac_res : ℕ → K)
  (hess_res : ℕ → ℕ → K) (minindex : ℕ) (delta : K)

lemma setRow_setRow (A : ℕ → ℕ → K) (r : ℕ) (f g : ℕ → K) :
    setRow (setRow A r f) r g = setRow A r g := by
  funext a b
  by_cases hab : a = r <;> simp [setRow, hab]

lemma add_point_shape (h : Hist K) (qtmp : ℕ → ℕ → K) (index : ℕ)
    (hcap : h.nhist < 1000) :
    ∃ v : ℕ → K,
      add_point nobs criterion qtmp minindex index delta h =
        .ok (⟨setRow h.xhist h.nhist v, setRow h.fhist h.nhist (criterion v),
              Function.update h.fnorm h.nhist (compute_fnorm nobs (criterion v)),
              Function.update h.model_indices h.mpoints h.nhist,
              h.mpoints + 1, h.nhist + 1⟩, v) := by
  rw [add_point, if_pos (by simpa [historyCapacity] using hcap)]
  refine ⟨fun t => delta * qtmp t index +
    (setRow h.xhist h.nhist fun t' => qtmp t' index) minindex t, ?_⟩
  have hcol : (setRow (setRow h.xhist h.nhist fun t => qtmp t index) h.nhist
        fun t => delta * (setRow h.xhist h.nhist fun t' => qtmp t' index) h.nhist t +
          (setRow h.xhist h.nhist fun t' => qtmp t' index) minindex t) =
      setRow h.xhist h.nhist (fun t => delta * qtmp t index +
        (setRow h.xhist h.nhist fun t' => qtmp t' index) minindex t) := by
    rw [setRow_setRow]
    have : ∀ t, (setRow h.xhist h.nhist fun t' => qtmp t' index) h.nhist t =
        qtmp t index := by
      intro t
      simp [setRow]
    simp only [this]
  have hval : (setRow h.xhist h.nhist (fun t => delta * qtmp t index +
      (setRow h.xhist h.nhist fun t' => qtmp t' index) minindex t)) h.nhist =
      fun t => delta * qtmp t index +
        (setRow h.xhist h.nhist fun t' => qtmp t' index) minindex t := by
    funext t
    simp [setRow]
  simp only [hcol, hval]

lemma impStep_zero (s : ImpState K) (i : ℕ) :
    impStep nobs n criterion jac_res hess_res minindex delta 0 s i =
      .ok (impNext n jac_res hess_res s i) := by
  simp [impStep]

lemma impLoop_zero (is : List ℕ) : ∀ s : ImpState K,
    impLoop nobs n criterion jac_res hess_res minindex delta 0 is s =
      .ok (is.foldl (impNext n jac_res hess_res) s) := by
  induction is with
  | nil => intro s; rfl
  | cons i is ih =>
      intro s
      rw [impLoop, impStep_zero]
      exact ih (impNext n jac_res hess_res s i)

lemma impFold_basic (is : List ℕ) : ∀ s : ImpState K,
    (is.foldl (impNext n jac_res hess_res) s).hist = s.hist ∧
    (is.foldl (impNext n jac_res hess_res) s).calls = s.calls := by
  induction is with
  | nil => intro s; exact ⟨rfl, rfl⟩
  | cons i is ih => intro s; exact ih (impNext n jac_res hess_res s i)

lemma impFold_work_off (is : List ℕ) : ∀ (s : ImpState K) (j : ℕ), j ∉ is →
    (is.foldl (impNext n jac_res hess_res) s).work j = s.work j := by
  induction is with
  | nil => intro s j _; rfl
  | cons i is ih =>
      intro s j hj
      have hji : j ≠ i := fun hc => hj (hc ▸ List.mem_cons_self i is)
      have hjs : j ∉ is := fun hc => hj (List.mem_cons_of_mem i hc)
      rw [List.foldl_cons, ih _ j hjs]
      simp [impNext, Function.update_noteq hji]

/-- Argmin invariant of the scoring loop: over a strictly ascending index
list whose members all exceed both `mpoints` and the current champion index,
the champion after the fold is the first index achieving the minimal score. -/
lemma impFold_argmin (is : List ℕ) : ∀ s S : ImpState K,
    S = is.foldl (impNext n jac_res hess_res) s →
    List.Pairwise (· < ·) is →
    (∀ i ∈ is, s.hist.mpoints < i) →
    (∀ i ∈ is, s.minindex_internal < i) →
    s.minvalue = some (s.work s.minindex_internal) →
    (S.minindex_internal = s.minindex_internal ∨ S.minindex_internal ∈ is) ∧
    S.minvalue = some (S.work S.minindex_internal) ∧
    S.work S.minindex_internal ≤ s.work s.minindex_internal ∧
    (S.minindex_internal ≠ s.minindex_internal →
      S.work S.minindex_internal < s.work s.minindex_internal) ∧
    ∀ i ∈ is, S.work S.minindex_internal ≤ S.work i ∧
      (S.work i = S.work S.minindex_internal → S.minindex_internal ≤ i) := by
  induction is with
  | nil =>
      intro s S hS _ _ _ hmv
      subst hS
      refine ⟨Or.inl rfl, hmv, le_refl _, fun hne => absurd rfl hne, ?_⟩
      intro i hi
      exact absurd hi (List.not_mem_nil i)
  | cons i is ih =>
      intro s S hS hpw hmp hlt hmv
      obtain ⟨hhead, htail⟩ := List.pairwise_cons.mp hpw
      have hmpi : s.hist.mpoints < i := hmp i (List.mem_cons_self i is)
      have hlti : s.minindex_internal < i := hlt i (List.mem_cons_self i is)
      have hinotin : i ∉ is := fun hc => lt_irrefl i (hhead i hc)
      set wi := impScore n jac_res hess_res s i with hwi
      set w := s.work s.minindex_internal with hw
      have hbeq : (i == s.hist.mpoints) = false := by
        simp only [beq_eq_false_iff_ne, ne_eq]
        omega
      have hbetter : impBetter n jac_res hess_res s i = decide (wi < w) := by
        rw [impBetter, hmv, hbeq]
        simp
      rw [List.foldl_cons] at hS
      set s' := impNext n jac_res hess_res s i with hs'def
      have hhist' : s'.hist = s.hist := rfl
      have hwork' : s'.work = Function.update s.work i wi := rfl
      by_cases hb : wi < w
      · have hbt : impBetter n jac_res hess_res s i = true := by
          rw [hbetter]
          simpa using hb
        have hmi' : s'.minindex_internal = i := by
          show (if impBetter n jac_res hess_res s i then i else s.minindex_internal) = i
          rw [hbt]
          simp
        have hmv' : s'.minvalue = some wi := by
          show (if impBetter n jac_res hess_res s i
            then some (impScore n jac_res hess_res s i) else s.minvalue) = some wi
          rw [hbt]
          simp
        have hsmi : s'.work s'.minindex_internal = wi := by
          rw [hmi', hwork', Function.update_same]
        obtain ⟨hA, hB, hC, hD, hE⟩ := ih s' S hS htail
          (fun a ha => by rw [hhist']; exact hmp a (List.mem_cons_of_mem i ha))
          (fun a ha => by rw [hmi']; exact hhead a ha)
          (by rw [hmv', hsmi])
        rw [hsmi] at hC hD
        rw [hmi'] at hA hD
        refine ⟨?_, hB, le_of_lt (lt_of_le_of_lt hC hb), fun _ => lt_of_le_of_lt hC hb, ?_⟩
        · rcases hA with h | h
          · exact Or.inr (by rw [h]; exact List.mem_cons_self i is)
          · exact Or.inr (List.mem_cons_of_mem i h)
        · intro a ha
          rcases List.mem_cons.mp ha with hai | has
          · have hSa : S.work a = wi := by
              rw [hai, hS, impFold_work_off n jac_res hess_res is s' i hinotin, hwork',
                Function.update_same]
            refine ⟨by rw [hSa]; exact hC, ?_⟩
            intro heq
            by_cases hma : S.minindex_internal = a
            · exact le_of_eq hma
            · exfalso
              have hne2 : S.minindex_internal ≠ i := by rw [← hai]; exact hma
              have hlt2 := hD hne2
              have hq : S.work S.minindex_internal = wi := by rw [← heq, hSa]
              rw [hq] at hlt2
              exact lt_irrefl _ hlt2
          · exact hE a has
      · have hbt : impBetter n jac_res hess_res s i = false := by
          rw [hbetter]
          simpa using hb
        have hmi' : s'.minindex_internal = s.minindex_internal := by
          show (if impBetter n jac_res hess_res s i then i else s.minindex_internal) =
            s.minindex_internal
          rw [hbt]
          simp
        have hmv' : s'.minvalue = s.minvalue := by
          show (if impBetter n jac_res hess_res s i
            then some (impScore n jac_res hess_res s i) else s.minvalue) = s.minvalue
          rw [hbt]
          simp
        have hsmi : s'.work s'.minindex_internal = w := by
          rw [hmi', hwork', Function.update_noteq (by omega)]
        obtain ⟨hA, hB, hC, hD, hE⟩ := ih s' S hS htail
          (fun a ha => by rw [hhist']; exact hmp a (List.mem_cons_of_mem i ha))
          (fun a ha => by rw [hmi']; exact hlt a (List.mem_cons_of_mem i ha))
          (by rw [hmv', hsmi, hmv])
        rw [hsmi] at hC hD
        rw [hmi'] at hA hD
        have hwle : w ≤ wi := le_of_not_lt hb
        refine ⟨?_, hB, hC, hD, ?_⟩
        · rcases hA with h | h
          · exact Or.inl h
          · exact Or.inr (List.mem_cons_of_mem i h)
        · intro a ha
          rcases List.mem_cons.mp ha with hai | has
          · have hSa : S.work a = wi := by
              rw [hai, hS, impFold_work_off n jac_res hess_res is s' i hinotin, hwork',
                Function.update_same]
            refine ⟨by rw [hSa]; exact le_trans hC hwle, ?_⟩
            intro heq
            by_cases hma : S.minindex_internal = a
            · exact le_of_eq hma
            · by_cases hms : S.minindex_internal = s.minindex_internal
              · rw [hms, hai]
                exact le_of_lt hlti
              · exfalso
                have hlt2 := hD hms
                have hq : S.work S.minindex_internal = wi := by rw [← heq, hSa]
                rw [hq] at hlt2
                exact hb hlt2
          · exact hE a has

/-- Run of the scoring loop in evaluate-all mode (`addallpoints != 0`): one
`_add_point` per iteration, so the history grows by one point per missing
direction, each recorded in the model index set, with the criterion trace
matching the appended rows. -/
lemma impLoop_addall (addallpoints : ℕ) (hadd : addallpoints ≠ 0) :
    ∀ (k : ℕ), ∀ (a : ℕ) (s : ImpState K),
      s.hist.mpoints = a →
      s.hist.nhist + k ≤ 1000 →
      ∃ S : ImpState K,
        impLoop nobs n criterion jac_res hess_res minindex delta addallpoints
          (List.range' a k) s = .ok S ∧
        S.hist.mpoints = a + k ∧
        S.hist.nhist = s.hist.nhist + k ∧
        S.calls.length = s.calls.length + k ∧
        (∀ t, t < s.calls.length →
          S.calls.getD t (fun _ => 0) = s.calls.getD t (fun _ => 0)) ∧
        (∀ p, p < a → S.hist.model_indices p = s.hist.model_indices p) ∧
        (∀ p, p < s.hist.nhist → S.hist.xhist p = s.hist.xhist p) ∧
        (∀ p, p < s.hist.nhist → S.hist.fhist p = s.hist.fhist p) ∧
        (∀ t, t < k → S.hist.model_indices (a + t) = s.hist.nhist + t) ∧
        (∀ t, t < k →
          S.hist.xhist (s.hist.nhist + t) =
            S.calls.getD (s.calls.length + t) (fun _ => 0)) ∧
        (∀ t, t < k →
          S.hist.fhist (s.hist.nhist + t) =
            criterion (S.hist.xhist (s.hist.nhist + t))) := by
  intro k
  induction k with
  | zero =>
      intro a s hmp hcap
      refine ⟨s, rfl, by omega, by omega, by omega, fun t _ => rfl, fun p _ => rfl,
        fun p _ => rfl, fun p _ => rfl, fun t ht => absurd ht (by omega),
        fun t ht => absurd ht (by omega), fun t ht => absurd ht (by omega)⟩
  | succ k ihk =>
      intro a s hmp hcap
      obtain ⟨v, hv⟩ := add_point_shape nobs criterion minindex delta s.hist
        (impCol n jac_res s a) a (by omega)
      have hstep : impStep nobs n criterion jac_res hess_res minindex delta
          addallpoints s a =
          .ok { impNext n jac_res hess_res s a with
                hist := ⟨setRow s.hist.xhist s.hist.nhist v,
                         setRow s.hist.fhist s.hist.nhist (criterion v),
                         Function.update s.hist.fnorm s.hist.nhist
                           (compute_fnorm nobs (criterion v)),
                         Function.update s.hist.model_indices s.hist.mpoints
                           s.hist.nhist,
                         s.hist.mpoints + 1, s.hist.nhist + 1⟩,
                calls := s.calls ++ [v] } := by
        rw [impStep, if_pos hadd, hv]
      set s2 : ImpState K :=
        { impNext n jac_res hess_res s a with
          hist := ⟨setRow s.hist.xhist s.hist.nhist v,
                   setRow s.hist.fhist s.hist.nhist (criterion v),
                   Function.update s.hist.fnorm s.hist.nhist
                     (compute_fnorm nobs (criterion v)),
                   Function.update s.hist.model_indices s.hist.mpoints s.hist.nhist,
                   s.hist.mpoints + 1, s.hist.nhist + 1⟩,
          calls := s.calls ++ [v] } with hs2
      obtain ⟨S, hSrun, hS1, hS2, hS3, hS4, hS5, hS6, hS7, hS8, hS9, hS10⟩ :=
        ihk (a + 1) s2 (by simp [hs2]; omega) (by simp [hs2]; omega)
      have hs2calls : s2.calls = s.calls ++ [v] := rfl
      have hs2len : s2.calls.length = s.calls.length + 1 := by
        rw [hs2calls, List.length_append, List.length_cons, List.length_nil]
      refine ⟨S, ?_, ?_, ?_, ?_, ?_, ?_, ?_, ?_, ?_, ?_, ?_⟩
      · rw [List.range'_succ, impLoop, hstep]
        exact hSrun
      · rw [hS1]
        omega
      · rw [hS2]
        show s.hist.nhist + 1 + k = s.hist.nhist + (k + 1)
        omega
      · rw [hS3, hs2len]
        omega
      · intro t ht
        rw [hS4 t (by rw [hs2len]; omega), hs2calls,
          List.getD_append _ _ _ _ (by omega)]
      · intro p hp
        rw [hS5 p (by omega)]
        show Function.update s.hist.model_indices s.hist.mpoints s.hist.nhist p = _
        rw [Function.update_noteq (by omega)]
      · intro p hp
        rw [hS6 p (by show p < s.hist.nhist + 1; omega)]
        show setRow s.hist.xhist s.hist.nhist v p = _
        funext b
        show (if p = s.hist.nhist then v b else s.hist.xhist p b) = s.hist.xhist p b
        rw [if_neg (by omega : ¬p = s.hist.nhist)]
      · intro p hp
        rw [hS7 p (by show p < s.hist.nhist + 1; omega)]
        show setRow s.hist.fhist s.hist.nhist (criterion v) p = _
        funext b
        show (if p = s.hist.nhist then criterion v b else s.hist.fhist p b) =
          s.hist.fhist p b
        rw [if_neg (by omega : ¬p = s.hist.nhist)]
      · intro t ht
        match t with
        | 0 =>
            rw [show a + 0 = a from rfl, hS5 a (by omega)]
            show Function.update s.hist.model_indices s.hist.mpoints s.hist.nhist a = _
            rw [hmp, Function.update_same]
            omega
        | t' + 1 =>
            have := hS8 t' (by omega)
            rw [show a + (t' + 1) = a + 1 + t' from by omega, this]
            show s.hist.nhist + 1 + t' = s.hist.nhist + (t' + 1)
            omega
      · intro t ht
        match t with
        | 0 =>
            have hx : S.hist.xhist (s.hist.nhist + 0) = v := by
              rw [show s.hist.nhist + 0 = s.hist.nhist from rfl,
                hS6 s.hist.nhist (by show s.hist.nhist < s.hist.nhist + 1; omega)]
              show setRow s.hist.xhist s.hist.nhist v s.hist.nhist = v
              funext b
              simp [setRow]
            have hc : S.calls.getD (s.calls.length + 0) (fun _ => 0) = v := by
              rw [show s.calls.length + 0 = s.calls.length from rfl,
                hS4 s.calls.length (by rw [hs2len]; omega), hs2calls,
                List.getD_append_right _ _ _ _ (by omega)]
              simp
            rw [hx, hc]
        | t' + 1 =>
            have := hS9 t' (by omega)
            rw [show s.hist.nhist + (t' + 1) = s.hist.nhist + 1 + t' from by omega,
              show s.calls.length + (t' + 1) = s.calls.length + 1 + t' from by omega,
              ← hs2len]
            exact this
      · intro t ht
        match t with
        | 0 =>
            rw [show s.hist.nhist + 0 = s.hist.nhist from rfl,
              hS7 s.hist.nhist (by show s.hist.nhist < s.hist.nhist + 1; omega),
              hS6 s.hist.nhist (by show s.hist.nhist < s.hist.nhist + 1; omega)]
            show setRow s.hist.fhist s.hist.nhist (criterion v) s.hist.nhist =
              criterion (setRow s.hist.xhist s.hist.nhist v s.hist.nhist)
            have h1 : setRow s.hist.xhist s.hist.nhist v s.hist.nhist = v := by
              funext b
              simp [setRow]
            have h2 : setRow s.hist.fhist s.hist.nhist (criterion v) s.hist.nhist =
                criterion v := by
              funext b
              simp [setRow]
            rw [h1, h2]
        | t' + 1 =>
            have := hS10 t' (by omega)
            rw [show s.hist.nhist + (t' + 1) = s.hist.nhist + 1 + t' from by omega]
            exact this

end ImproveModelLemmas

/-- Claim C5 counterexample: for `n = 2` (so `mpoints = 1 < n`) the call
`qr_multiply(qmat, np.eye(3), mode="right")` raises a shape mismatch before
any criterion evaluation, so no criterion call is made at all — refuting
"exactly one criterion call is made" for this call. -/
theorem improve_model_n2_no_call :
    improve_model (K := ℚ) (fun _ _ _ => fun _ _ => 0) 1 (fun _ => fun _ => 0)
      (fun _ => 0) (fun _ _ => 0) (fun _ _ => 0) 0 0 2 1
      ⟨fun _ _ => 0, fun _ _ => 0, fun _ => 0, fun _ => 0, 1, 2⟩ =
      .error .dimMismatch := rfl

/-- Claim C5 (amended: restricted to `n = 3`, the only dimension
`improve_model` supports — see claim C2): for every completed call with
`mpoints < n`, when evaluate-all mode is off (`addallpoints == 0`) exactly one
criterion call is made, at `xmin + delta·qtmp[:, i*]` where
`i* = minindex_internal` is the missing-direction index in `[mpoints, n)` of
minimal curvature-adjusted score (first such index on ties), the evaluation
being appended to the history and model set; when evaluate-all mode is on,
exactly `n − mpoints` criterion calls are made, each appended to History and
ModelIndexSet with `mpoints` incremented. -/
theorem improve_model_criterion_calls
    (qrQ : ℕ → ℕ → (ℕ → ℕ → K) → ℕ → ℕ → K) (nobs : ℕ)
    (criterion : (ℕ → K) → ℕ → K) (jac_res : ℕ → K) (hess_res : ℕ → ℕ → K)
    (qmat : ℕ → ℕ → K) (minindex n : ℕ) (delta : K) (h : Hist K)
    (hn : n = 3) (hmp : h.mpoints < n) (hmin : minindex < h.nhist)
    (hcap : h.nhist + (n - h.mpoints) ≤ 1000) :
    (∃ r : ImpState K,
      improve_model qrQ nobs criterion jac_res hess_res qmat minindex 0 n delta h =
        .ok r ∧
      r.calls = [fun t => delta * r.qtmp t r.minindex_internal + h.xhist minindex t] ∧
      h.mpoints ≤ r.minindex_internal ∧ r.minindex_internal < n ∧
      (∀ j, h.mpoints ≤ j → j < n →
        r.work r.minindex_internal ≤ r.work j ∧
        (r.work j = r.work r.minindex_internal → r.minindex_internal ≤ j)) ∧
      r.hist.mpoints = h.mpoints + 1 ∧
      r.hist.nhist = h.nhist + 1 ∧
      r.hist.model_indices h.mpoints = h.nhist ∧
      r.hist.xhist h.nhist =
        (fun t => delta * r.qtmp t r.minindex_internal + h.xhist minindex t)) ∧
    ∀ addallpoints : ℕ, addallpoints ≠ 0 →
      ∃ r : ImpState K,
        improve_model qrQ nobs criterion jac_res hess_res qmat minindex addallpoints n
          delta h = .ok r ∧
        r.calls.length = n - h.mpoints ∧
        r.hist.mpoints = n ∧
        r.hist.nhist = h.nhist + (n - h.mpoints) ∧
        (∀ t, t < n - h.mpoints →
          r.hist.model_indices (h.mpoints + t) = h.nhist + t ∧
          r.hist.xhist (h.nhist + t) = r.calls.getD t (fun _ => 0) ∧
          r.hist.fhist (h.nhist + t) = criterion (r.hist.xhist (h.nhist + t))) := by
  subst hn
  constructor
  · -- addallpoints == 0: single evaluation at the argmin direction
    set s0 : ImpState K := ⟨h, qrQ 3 3 qmat, fun _ => 0, 0, none, []⟩ with hs0
    set S : ImpState K :=
      (List.range' h.mpoints (3 - h.mpoints)).foldl (impNext 3 jac_res hess_res) s0
      with hSdef
    obtain ⟨hSh, hScalls⟩ := impFold_basic 3 jac_res hess_res
      (List.range' h.mpoints (3 - h.mpoints)) s0
    rw [← hSdef] at hSh hScalls
    have hs0h : s0.hist = h := rfl
    rw [hs0h] at hSh
    have hs0calls : s0.calls = [] := rfl
    rw [hs0calls] at hScalls
    have hloop := impLoop_zero nobs 3 criterion jac_res hess_res minindex delta
      (List.range' h.mpoints (3 - h.mpoints)) s0
    rw [← hSdef] at hloop
    have hcap' : S.hist.nhist < 1000 := by
      rw [hSh]
      omega
    obtain ⟨v, hv⟩ := add_point_shape nobs criterion minindex delta S.hist S.qtmp
      S.minindex_internal hcap'
    have hap := add_point_run nobs criterion S.qtmp minindex S.minindex_internal delta
      S.hist hcap' (by rw [hSh]; exact hmin)
    have hrun1 : improve_model qrQ nobs criterion jac_res hess_res qmat minindex 0 3
        delta h =
        (match add_point nobs criterion S.qtmp minindex S.minindex_internal delta
            S.hist with
         | .error e => .error e
         | .ok (h1, xnew) =>
             .ok ⟨h1, S.qtmp, S.work, S.minindex_internal, S.minvalue,
                  S.calls ++ [xnew]⟩) := by
      rw [improve_model, if_pos rfl, ← hs0, hloop]
      rfl
    have hrun : improve_model qrQ nobs criterion jac_res hess_res qmat minindex 0 3
        delta h =
        .ok ⟨⟨setRow S.hist.xhist S.hist.nhist
               (fun t => delta * S.qtmp t S.minindex_internal + S.hist.xhist minindex t),
              setRow S.hist.fhist S.hist.nhist
                (criterion fun t =>
                  delta * S.qtmp t S.minindex_internal + S.hist.xhist minindex t),
              Function.update S.hist.fnorm S.hist.nhist
                (compute_fnorm nobs
                  (criterion fun t =>
                    delta * S.qtmp t S.minindex_internal + S.hist.xhist minindex t)),
              Function.update S.hist.model_indices S.hist.mpoints S.hist.nhist,
              S.hist.mpoints + 1, S.hist.nhist + 1⟩,
             S.qtmp, S.work, S.minindex_internal, S.minvalue,
             S.calls ++ [fun t =>
               delta * S.qtmp t S.minindex_internal + S.hist.xhist minindex t]⟩ := by
      rw [hrun1, hap]
    rw [hScalls, hSh] at hrun
    simp only [List.nil_append] at hrun
    -- decompose the loop to apply the argmin invariant
    set s1 : ImpState K := impNext 3 jac_res hess_res s0 h.mpoints with hs1def
    have hk : 3 - h.mpoints - 1 + 1 = 3 - h.mpoints := by omega
    have hsplit : List.range' h.mpoints (3 - h.mpoints) =
        h.mpoints :: List.range' (h.mpoints + 1) (3 - h.mpoints - 1) := by
      nth_rewrite 1 [← hk]
      rw [List.range'_succ]
    have hSfold : S = (List.range' (h.mpoints + 1) (3 - h.mpoints - 1)).foldl
        (impNext 3 jac_res hess_res) s1 := by
      rw [hSdef, hsplit, List.foldl_cons]
    have hbt : impBetter 3 jac_res hess_res s0 h.mpoints = true := by
      rw [impBetter]
      have : (h.mpoints == s0.hist.mpoints) = true := by
        rw [hs0h]
        exact beq_self_eq_true h.mpoints
      rw [this]
      simp
    have hmi1 : s1.minindex_internal = h.mpoints := by
      show (if impBetter 3 jac_res hess_res s0 h.mpoints then h.mpoints
        else s0.minindex_internal) = h.mpoints
      rw [hbt]
      simp
    have hmv1 : s1.minvalue = some (impScore 3 jac_res hess_res s0 h.mpoints) := by
      show (if impBetter 3 jac_res hess_res s0 h.mpoints
        then some (impScore 3 jac_res hess_res s0 h.mpoints) else s0.minvalue) = _
      rw [hbt]
      simp
    have hs1w : s1.work h.mpoints = impScore 3 jac_res hess_res s0 h.mpoints := by
      show Function.update s0.work h.mpoints (impScore 3 jac_res hess_res s0 h.mpoints)
        h.mpoints = _
      rw [Function.update_same]
    have hs1smi : s1.work s1.minindex_internal =
        impScore 3 jac_res hess_res s0 h.mpoints := by
      rw [hmi1, hs1w]
    obtain ⟨hA, hB, hC, hD, hE⟩ := impFold_argmin 3 jac_res hess_res
      (List.range' (h.mpoints + 1) (3 - h.mpoints - 1)) s1 S hSfold
      (List.pairwise_lt_range' _ _)
      (by
        intro a ha
        have := List.mem_range'_1.mp ha
        show s0.hist.mpoints < a
        rw [hs0h]
        omega)
      (by
        intro a ha
        have := List.mem_range'_1.mp ha
        rw [hmi1]
        omega)
      (by rw [hmv1, hs1smi])
    rw [hs1smi] at hC hD
    rw [hmi1] at hA hD
    have hmib : h.mpoints ≤ S.minindex_internal ∧ S.minindex_internal < 3 := by
      rcases hA with hA | hA
      · omega
      · have := List.mem_range'_1.mp hA
        omega
    have hSwmp : S.work h.mpoints = impScore 3 jac_res hess_res s0 h.mpoints := by
      have hnotin : h.mpoints ∉ List.range' (h.mpoints + 1) (3 - h.mpoints - 1) := by
        intro hc
        have := List.mem_range'_1.mp hc
        omega
      rw [hSfold, impFold_work_off 3 jac_res hess_res _ s1 h.mpoints hnotin, hs1w]
    refine ⟨_, hrun, rfl, hmib.1, hmib.2, ?_, rfl, rfl, ?_, ?_⟩
    · show ∀ j, h.mpoints ≤ j → j < 3 →
        S.work S.minindex_internal ≤ S.work j ∧
        (S.work j = S.work S.minindex_internal → S.minindex_internal ≤ j)
      intro j hj1 hj2
      by_cases hjm : j = h.mpoints
      · subst hjm
        constructor
        · rw [hSwmp]
          exact hC
        · intro heq
          rcases hA with hA | hA
          · omega
          · exfalso
            have hne : S.minindex_internal ≠ h.mpoints := by
              have := List.mem_range'_1.mp hA
              omega
            have := hD hne
            rw [← hSwmp, heq] at this
            exact lt_irrefl _ this
      · have hjin : j ∈ List.range' (h.mpoints + 1) (3 - h.mpoints - 1) := by
          rw [List.mem_range'_1]
          omega
        exact hE j hjin
    · show Function.update h.model_indices h.mpoints h.nhist h.mpoints = _
      rw [Function.update_same]
    · show setRow h.xhist h.nhist
        (fun t => delta * S.qtmp t S.minindex_internal + h.xhist minindex t)
        h.nhist = _
      funext t
      simp [setRow]
  · -- addallpoints != 0: one evaluation per missing direction
    intro addallpoints hadd
    obtain ⟨S, hSrun, hS1, hS2, hS3, hS4, hS5, hS6, hS7, hS8, hS9, hS10⟩ :=
      impLoop_addall nobs 3 criterion jac_res hess_res minindex delta addallpoints hadd
        (3 - h.mpoints) h.mpoints ⟨h, qrQ 3 3 qmat, fun _ => 0, 0, none, []⟩ rfl
        (by show h.nhist + (3 - h.mpoints) ≤ 1000; exact hcap)
    refine ⟨S, ?_, ?_, ?_, ?_, ?_⟩
    · simp [improve_model, hSrun, hadd]
    · rw [hS3]
      simp
    · rw [hS1]
      omega
    · exact hS2
    · intro t ht
      exact ⟨hS8 t ht, by rw [hS9 t ht]; simp, hS10 t ht⟩

/-! ### `find_nearby_points` -/

/-- State threaded through the `find_nearby_points` scan: the basis matrix
`qmat`, the model index set, `mpoints`, the `q_is_I` flag, and whether the
`break` on `mpoints == n` has fired. -/
structure FnpState (K : Type*) where
  qmat : ℕ → ℕ → K
  model_indices : ℕ → ℕ
  mpoints : ℕ
  q_is_I : ℕ
  stop : Bool

/-- Value `xk_plus` for history point `i`: the scaled direction
`xk = (xhist[i, :] - xmin) / delta`, multiplied through the orthogonal factor
of `qmat` (`qr_multiply(qmat, xk_plus)`, i.e. `xkᵀ·Q`) when `q_is_I == 0`, and
`xk` itself otherwise. -/
def fnpXkPlus (qrQ : ℕ → ℕ → (ℕ → ℕ → K) → ℕ → ℕ → K) (xhist : ℕ → ℕ → K)
    (xmin : ℕ → K) (delta : K) (n : ℕ) (s : FnpState K) (i : ℕ) : ℕ → K :=
  if s.q_is_I = 0 then
    fun j => ∑ t ∈ Finset.range n, (xhist i t - xmin t) / delta * qrQ n n s.qmat t j
  else
    fun j => (xhist i j - xmin j) / delta

/-- One iteration of the `for i in range(nhist - 1, -1, -1)` scan of
`find_nearby_points` (the `break` is modelled by the `stop` flag): skip when
`normd > c`; otherwise, when `proj = norm(xk_plus[mpoints:]) >= theta1`,
zero `qmat`, write `xk` into column `mpoints`, record `i` in
`model_indices[mpoints]`, increment `mpoints` and clear `q_is_I`; finally
`break` once `mpoints == n`. -/
def fnpStep (sqrt : K → K) (qrQ : ℕ → ℕ → (ℕ → ℕ → K) → ℕ → ℕ → K)
    (xhist : ℕ → ℕ → K) (xmin : ℕ → K) (delta theta1 c : K) (n : ℕ)
    (s : FnpState K) (i : ℕ) : FnpState K :=
  if s.stop then s
  else if vnorm sqrt (fun j => (xhist i j - xmin j) / delta) 0 n ≤ c then
    if theta1 ≤ vnorm sqrt (fnpXkPlus qrQ xhist xmin delta n s i) s.mpoints n then
      if s.mpoints + 1 = n then
        ⟨setCol (fun _ _ => 0) s.mpoints fun j => (xhist i j - xmin j) / delta,
         Function.update s.model_indices s.mpoints i, s.mpoints + 1, 0, true⟩
      else
        ⟨setCol (fun _ _ => 0) s.mpoints fun j => (xhist i j - xmin j) / delta,
         Function.update s.model_indices s.mpoints i, s.mpoints + 1, 0, s.stop⟩
    else if s.mpoints = n then ⟨s.qmat, s.model_indices, s.mpoints, s.q_is_I, true⟩
    else s
  else s

/-- Embedding of `find_nearby_points(xhist, xmin, qmat, q_is_I, delta, theta1, c,
model_indices, n, mpoints, nhist)`: scan the history from the most recent
point (`nhist - 1`) down to `0`. -/
def find_nearby_points (sqrt : K → K) (qrQ : ℕ → ℕ → (ℕ → ℕ → K) → ℕ → ℕ → K)
    (xhist : ℕ → ℕ → K) (xmin : ℕ → K) (qmat : ℕ → ℕ → K) (q_is_I : ℕ)
    (delta theta1 c : K) (model_indices : ℕ → ℕ) (n mpoints nhist : ℕ) :
    FnpState K :=
  ((List.range nhist).reverse).foldl (fnpStep sqrt qrQ xhist xmin delta theta1 c n)
    ⟨qmat, model_indices, mpoints, q_is_I, false⟩

section FnpLemmas

variable (sqrt : K → K) (qrQ : ℕ → ℕ → (ℕ → ℕ → K) → ℕ → ℕ → K)
  (xhist : ℕ → ℕ → K) (xmin : ℕ → K) (delta theta1 c : K) (n : ℕ)

lemma fnpStep_mono (s : FnpState K) (i : ℕ) :
    s.mpoints ≤ (fnpStep sqrt qrQ xhist xmin delta theta1 c n s i).mpoints := by
  rw [fnpStep]
  split_ifs <;> first | exact le_refl _ | exact Nat.le_succ _

lemma fnpStep_pres (s : FnpState K) (i k : ℕ) (hk : k < s.mpoints) :
    (fnpStep sqrt qrQ xhist xmin delta theta1 c n s i).model_indices k =
      s.model_indices k := by
  rw [fnpStep]
  split_ifs <;> first | rfl | exact Function.update_noteq (by omega) _ _

lemma fnpScan_mono (l : List ℕ) : ∀ s : FnpState K,
    s.mpoints ≤ (l.foldl (fnpStep sqrt qrQ xhist xmin delta theta1 c n) s).mpoints := by
  induction l with
  | nil => intro s; exact le_refl _
  | cons i l ih =>
      intro s
      exact le_trans (fnpStep_mono sqrt qrQ xhist xmin delta theta1 c n s i)
        (ih (fnpStep sqrt qrQ xhist xmin delta theta1 c n s i))

lemma fnpScan_pres (l : List ℕ) : ∀ (s : FnpState K) (k : ℕ), k < s.mpoints →
    (l.foldl (fnpStep sqrt qrQ xhist xmin delta theta1 c n) s).model_indices k =
      s.model_indices k := by
  induction l with
  | nil => intro s k _; rfl
  | cons i l ih =>
      intro s k hk
      rw [List.foldl_cons,
        ih _ k (lt_of_lt_of_le hk (fnpStep_mono sqrt qrQ xhist xmin delta theta1 c n s i)),
        fnpStep_pres sqrt qrQ xhist xmin delta theta1 c n s i k hk]

lemma fnpScan_bound (hsq : sqrt 0 = 0) (hth : 0 < theta1) (l : List ℕ) :
    ∀ s : FnpState K, s.mpoints ≤ n →
      (l.foldl (fnpStep sqrt qrQ xhist xmin delta theta1 c n) s).mpoints ≤ n ∧
      ∀ k, n ≤ k →
        (l.foldl (fnpStep sqrt qrQ xhist xmin delta theta1 c n) s).model_indices k =
          s.model_indices k := by
  induction l with
  | nil => exact fun s hs => ⟨hs, fun k _ => rfl⟩
  | cons i l ih =>
      intro s hs
      have key : theta1 ≤ vnorm sqrt (fnpXkPlus qrQ xhist xmin delta n s i)
          s.mpoints n → s.mpoints < n := by
        intro hacc
        by_contra hge
        have hmn : s.mpoints = n := by omega
        rw [hmn] at hacc
        rw [vnorm, Finset.Ico_self, Finset.sum_empty, hsq] at hacc
        exact absurd (lt_of_lt_of_le hth hacc) (lt_irrefl 0)
      have hstep : (fnpStep sqrt qrQ xhist xmin delta theta1 c n s i).mpoints ≤ n ∧
          ∀ k, n ≤ k →
            (fnpStep sqrt qrQ xhist xmin delta theta1 c n s i).model_indices k =
              s.model_indices k := by
        rw [fnpStep]
        split_ifs with h1 h2 h3 h4
        · exact ⟨hs, fun k _ => rfl⟩
        · exact ⟨by show s.mpoints + 1 ≤ n; omega,
            fun k hk => Function.update_noteq (by have := key h3; omega) _ _⟩
        · exact ⟨by show s.mpoints + 1 ≤ n; have := key h3; omega,
            fun k hk => Function.update_noteq (by have := key h3; omega) _ _⟩
        · exact ⟨hs, fun k _ => rfl⟩
        · exact ⟨hs, fun k _ => rfl⟩
        · exact ⟨hs, fun k _ => rfl⟩
      rw [List.foldl_cons]
      obtain ⟨hih1, hih2⟩ := ih _ hstep.1
      exact ⟨hih1, fun k hk => by rw [hih2 k hk, hstep.2 k hk]⟩

end FnpLemmas

/-- Claim C10: with `theta1 > 0` (and the square root of an empty sum of
squares being `0`) a `find_nearby_points` call entered with `mpoints ≤ n`
returns `mpoints ≤ n`: once `mpoints` reaches `n` the projection residual over
the empty column range `[mpoints, n)` is `0 < theta1`, so nothing further is
accepted, and all writes to `model_indices` stay below `n`. -/
theorem find_nearby_points_mpoints_le (sqrt : K → K)
    (qrQ : ℕ → ℕ → (ℕ → ℕ → K) → ℕ → ℕ → K) (xhist : ℕ → ℕ → K) (xmin : ℕ → K)
    (qmat : ℕ → ℕ → K) (q_is_I : ℕ) (delta theta1 c : K) (model_indices : ℕ → ℕ)
    (n mpoints nhist : ℕ) (hsq : sqrt 0 = 0) (hth : 0 < theta1)
    (hmp : mpoints ≤ n) :
    (find_nearby_points sqrt qrQ xhist xmin qmat q_is_I delta theta1 c model_indices
      n mpoints nhist).mpoints ≤ n ∧
    ∀ k, n ≤ k →
      (find_nearby_points sqrt qrQ xhist xmin qmat q_is_I delta theta1 c model_indices
        n mpoints nhist).model_indices k = model_indices k := by
  exact fnpScan_bound sqrt qrQ xhist xmin delta theta1 c n hsq hth
    ((List.range nhist).reverse) ⟨qmat, model_indices, mpoints, q_is_I, false⟩ hmp

lemma range_reverse_split (i nhist : ℕ) (hi : i < nhist) :
    (List.range nhist).reverse =
      (List.range' (i + 1) (nhist - (i + 1))).reverse ++ i :: (List.range i).reverse := by
  have h1 : List.range nhist = List.range i ++ List.range' i (nhist - i) := by
    rw [List.range_eq_range', List.range_eq_range']
    rw [show List.range' i (nhist - i) = List.range' (0 + 1 * i) (nhist - i) from by
      simp, List.range'_append]
    rw [show nhist - i + i = nhist from by omega]
  have h2 : List.range' i (nhist - i) = i :: List.range' (i + 1) (nhist - (i + 1)) := by
    rw [show nhist - i = (nhist - (i + 1)) + 1 from by omega, List.range'_succ]
  rw [h1, h2, List.reverse_append, List.reverse_cons, List.append_assoc,
    List.singleton_append]

/-- Claim C9: `find_nearby_points` scans history strictly from the highest
index down; if, at the state reached when index `i` is scanned, the loop has
not stopped and `i` passes both the in-ball test and the projection test, then
`i` itself is recorded in the model slot open at that moment — any lower
history index that would also pass for that slot loses to `i`. -/
theorem find_nearby_points_newest_wins (sqrt : K → K)
    (qrQ : ℕ → ℕ → (ℕ → ℕ → K) → ℕ → ℕ → K) (xhist : ℕ → ℕ → K) (xmin : ℕ → K)
    (qmat : ℕ → ℕ → K) (q_is_I : ℕ) (delta theta1 c : K) (model_indices : ℕ → ℕ)
    (n mpoints nhist i : ℕ) (si : FnpState K) (hi : i < nhist)
    (hsi : si = ((List.range' (i + 1) (nhist - (i + 1))).reverse).foldl
      (fnpStep sqrt qrQ xhist xmin delta theta1 c n)
      ⟨qmat, model_indices, mpoints, q_is_I, false⟩)
    (hstop : si.stop = false)
    (hball : vnorm sqrt (fun j => (xhist i j - xmin j) / delta) 0 n ≤ c)
    (hacc : theta1 ≤ vnorm sqrt (fnpXkPlus qrQ xhist xmin delta n si i) si.mpoints n) :
    (find_nearby_points sqrt qrQ xhist xmin qmat q_is_I delta theta1 c model_indices
      n mpoints nhist).model_indices si.mpoints = i := by
  have hdec := range_reverse_split i nhist hi
  rw [find_nearby_points, hdec, List.foldl_append, List.foldl_cons, ← hsi]
  have hstep1 : (fnpStep sqrt qrQ xhist xmin delta theta1 c n si i).model_indices
      si.mpoints = i := by
    rw [fnpStep, if_neg (by rw [hstop]; exact Bool.false_ne_true), if_pos hball,
      if_pos hacc]
    split_ifs <;> exact Function.update_same _ _ _
  have hstep2 : si.mpoints < (fnpStep sqrt qrQ xhist xmin delta theta1 c n si i).mpoints := by
    rw [fnpStep, if_neg (by rw [hstop]; exact Bool.false_ne_true), if_pos hball,
      if_pos hacc]
    split_ifs <;> exact Nat.lt_succ_self _
  rw [fnpScan_pres sqrt qrQ xhist xmin delta theta1 c n ((List.range i).reverse) _
    si.mpoints hstep2, hstep1]

/-! ### `add_more_points`

The extension loop scans history from the most recent point down, building the
affine rows `M` and quadratic-feature rows `N`, and accepts a candidate when
the smallest relevant singular value of the reduced quadratic block of the
recomputed factorization exceeds `theta2`.  `svals r c A` is the abstract
oracle for `np.linalg.svd(A, compute_uv=False)` of an `r×c` array (descending
singular values). -/

/-- Entry update of a matrix-as-function: `A[i, j] = v`. -/
def setEntry (A : ℕ → ℕ → K) (i j : ℕ) (v : K) : ℕ → ℕ → K :=
  fun a b => if a = i ∧ b = j then v else A a b

/-- State of the `add_more_points` extension loop.  `L` and `Q_tmp` are local
variables of the Python function that are only assigned inside the loop body;
`none` models "not yet assigned" (reading them then raises `NameError`). -/
structure AmpState (K : Type*) where
  M : ℕ → ℕ → K
  N : ℕ → ℕ → K
  model_indices : ℕ → ℕ
  mpoints : ℕ
  L : Option (ℕ → ℕ → K)
  Q_tmp : Option (ℕ → ℕ → K)

/-- Result of `add_more_points`: `L, Z, N, M, mpoints` as returned, plus the
in-place mutated `model_indices` array, which the caller observes. -/
structure AmpOut (K : Type*) where
  L : ℕ → ℕ → K
  Z : ℕ → ℕ → K
  N : ℕ → ℕ → K
  M : ℕ → ℕ → K
  mpoints : ℕ
  model_indices : ℕ → ℕ

/-- Write `M[mpoints, 1:] = (xhist[point] - xmin) / delta` applied to `M`. -/
def ampM1 (xhist : ℕ → ℕ → K) (xmin : ℕ → K) (delta : K) (s : AmpState K)
    (p : ℕ) : ℕ → ℕ → K :=
  fun i j => if i = s.mpoints ∧ 1 ≤ j then (xhist p (j - 1) - xmin (j - 1)) / delta
  else s.M i j

/-- Write `N[mpoints, :] = _evaluate_phi(x=M[mpoints, 1:], n=n)` applied to `N`. -/
def ampN1 (sqrt : K → K) (xhist : ℕ → ℕ → K) (xmin : ℕ → K) (delta : K)
    (n : ℕ) (s : AmpState K) (p : ℕ) : ℕ → ℕ → K :=
  setRow s.N s.mpoints fun j =>
    (evaluate_phi sqrt (fun t => (xhist p t - xmin t) / delta) n).getD j 0

/-- Embedding of `Q_tmp = np.zeros((7, 7)); Q_tmp[:7, :n+1] = M`.  The assignment
broadcasts: it is legal only when `M` has 7 rows (`maxinterp = 7`) or a single
row (`maxinterp = 1`), and in the latter case the row is replicated. -/
def ampQtmp (n maxinterp : ℕ) (M1 : ℕ → ℕ → K) : ℕ → ℕ → K :=
  fun a b => if a < 7 ∧ b < n + 1 then (if maxinterp = 1 then M1 0 b else M1 a b)
  else 0

/-- Embedding of `L_tmp, _ = qr_multiply(Q_tmp[:mpoints+1, :], N.T[:T, :mpoints+1], mode="right")`:
`N.T[:T, :mpoints+1] · Q`, where `Q` is the orthogonal factor (from the
oracle) of the first `mpoints + 1` rows of `Q_tmp`. -/
def ampLtmp (qrQ : ℕ → ℕ → (ℕ → ℕ → K) → ℕ → ℕ → K) (mp : ℕ)
    (N1 Qt : ℕ → ℕ → K) : ℕ → ℕ → K :=
  fun a b => ∑ t ∈ Finset.range (mp + 1), N1 t a * qrQ (mp + 1) 7 Qt t b

/-- Embedding of `beta = np.linalg.svd(L_tmp.T[n+1:], compute_uv=False)` followed by the
selection `beta[min(mpoints - n, n*(n+1)/2) - 1]` — the smallest of the
relevant singular values of the reduced quadratic block. -/
def ampSval (svals : ℕ → ℕ → (ℕ → ℕ → K) → ℕ → K) (n mp : ℕ)
    (Ltmp : ℕ → ℕ → K) : K :=
  svals (mp - n) (n * (n + 1) / 2) (fun a b => Ltmp b (n + 1 + a))
    (min (mp - n) (n * (n + 1) / 2) - 1)

/-- The well-poisedness test value computed for candidate `p` in state `s`. -/
def ampTestValue (sqrt : K → K) (qrQ : ℕ → ℕ → (ℕ → ℕ → K) → ℕ → ℕ → K)
    (svals : ℕ → ℕ → (ℕ → ℕ → K) → ℕ → K) (xhist : ℕ → ℕ → K) (xmin : ℕ → K)
    (delta : K) (n maxinterp : ℕ) (s : AmpState K) (p : ℕ) : K :=
  ampSval svals n s.mpoints
    (ampLtmp qrQ s.mpoints (ampN1 sqrt xhist xmin delta n s p)
      (ampQtmp n maxinterp (ampM1 xhist xmin delta s p)))

/-- One iteration of the `while (mpoints < maxinterp) and (point >= 0)` loop
body of `add_more_points` for candidate `point = p`.

A candidate already among `model_indices[0 : n+1]` is skipped (`reject = 1`
followed by `continue`).  For all other candidates the source then computes
`normd = norm(xhist[point] - xhist[minindex]) / delta` and sets `reject = 1`
when `normd > c2`, but never reads `reject` again: execution falls through to
the factorization and the poisedness test regardless, so the distance check
has no effect on the control flow.  The broadcast into the hardcoded 7×7
`Q_tmp` raises unless `maxinterp` is 7 (or the degenerate 1). -/
def ampBody (sqrt : K → K) (qrQ : ℕ → ℕ → (ℕ → ℕ → K) → ℕ → ℕ → K)
    (svals : ℕ → ℕ → (ℕ → ℕ → K) → ℕ → K) (xhist : ℕ → ℕ → K) (xmin : ℕ → K)
    (delta theta2 : K) (n maxinterp : ℕ) (s : AmpState K) (p : ℕ) :
    Except PErr (AmpState K) :=
  if ∃ t ∈ Finset.range (n + 1), p = s.model_indices t then .ok s
  else if maxinterp = 7 ∨ maxinterp = 1 then
    if theta2 < ampTestValue sqrt qrQ svals xhist xmin delta n maxinterp s p then
      .ok ⟨ampM1 xhist xmin delta s p, ampN1 sqrt xhist xmin delta n s p,
           Function.update s.model_indices s.mpoints p, s.mpoints + 1,
           some (ampLtmp qrQ s.mpoints (ampN1 sqrt xhist xmin delta n s p)
             (ampQtmp n maxinterp (ampM1 xhist xmin delta s p))),
           some (ampQtmp n maxinterp (ampM1 xhist xmin delta s p))⟩
    else
      .ok ⟨ampM1 xhist xmin delta s p, ampN1 sqrt xhist xmin delta n s p,
           s.model_indices, s.mpoints, s.L,
           some (ampQtmp n maxinterp (ampM1 xhist xmin delta s p))⟩
  else .error .dimMismatch

/-- The `while` loop of `add_more_points` over the descending candidate list;
it stops as soon as `mpoints` reaches `maxinterp`. -/
def ampLoop (sqrt : K → K) (qrQ : ℕ → ℕ → (ℕ → ℕ → K) → ℕ → ℕ → K)
    (svals : ℕ → ℕ → (ℕ → ℕ → K) → ℕ → K) (xhist : ℕ → ℕ → K) (xmin : ℕ → K)
    (delta theta2 : K) (n maxinterp : ℕ) :
    List ℕ → AmpState K → Except PErr (AmpState K)
  | [], s => .ok s
  | p :: ps, s =>
      if s.mpoints < maxinterp then
        match ampBody sqrt qrQ svals xhist xmin delta theta2 n maxinterp s p with
        | .error e => .error e
        | .ok s1 => ampLoop sqrt qrQ svals xhist xmin delta theta2 n maxinterp ps s1
      else .ok s

/-- The degenerate `L` of `add_more_points`: `np.zeros((maxinterp, T))` with
`L[:n, :n] = np.eye(n)`. -/
def ampLdefault (n : ℕ) : ℕ → ℕ → K :=
  fun a b => if a < n ∧ b < n then (if a = b then 1 else 0) else 0

/-- Embedding of `Z = cq[:, n+1 : mpoints]` where
`cq, _ = qr_multiply(Q_tmp[:mpoints, :], np.eye(maxinterp)[:, :mpoints], mode="right")`. -/
def ampZ (qrQ : ℕ → ℕ → (ℕ → ℕ → K) → ℕ → ℕ → K) (n mp : ℕ)
    (Qt : ℕ → ℕ → K) : ℕ → ℕ → K :=
  fun a b => ∑ t ∈ Finset.range mp, (if a = t then 1 else 0) * qrQ mp 7 Qt t (n + 1 + b)

/-- Reading the loop's `L` after the loop (`mpoints > n+1` case): `NameError`
if it was never assigned. -/
def ampLread (qrQ : ℕ → ℕ → (ℕ → ℕ → K) → ℕ → ℕ → K) (n : ℕ) (s : AmpState K)
    (Qt : ℕ → ℕ → K) : Except PErr (AmpOut K) :=
  match s.L with
  | none => .error .nameUndefined
  | some L => .ok ⟨L, ampZ qrQ n s.mpoints Qt, s.N, s.M, s.mpoints, s.model_indices⟩

/-- Epilogue of `add_more_points`: read `Q_tmp` (a `NameError` if the loop
body never ran), build `Z`, and override `L` with the identity-block default
when `mpoints == n+1`. -/
def ampFinish (qrQ : ℕ → ℕ → (ℕ → ℕ → K) → ℕ → ℕ → K) (n : ℕ) (s : AmpState K) :
    Except PErr (AmpOut K) :=
  match s.Q_tmp with
  | none => .error .nameUndefined
  | some Qt =>
      if s.mpoints = n + 1 then
        .ok ⟨ampLdefault n, ampZ qrQ n s.mpoints Qt, s.N, s.M, s.mpoints,
             s.model_indices⟩
      else ampLread qrQ n s Qt

/-- Embedding of `add_more_points(xhist, xmin, model_indices, minindex, delta, c2, theta2,
n, maxinterp, mpoints, nhist)`.  (`c2` and `minindex` feed only the dead
`reject` distance flag, see `ampBody`, so the loop result does not depend on
them.)  `M` and `N` start with the `n+1` affine rows of the current model
points (`M[:, 0] = 1`), `mpoints` is reset to `n + 1`, and the scan runs from
`nhist - 1` down to `0`. -/
def add_more_points (sqrt : K → K) (qrQ : ℕ → ℕ → (ℕ → ℕ → K) → ℕ → ℕ → K)
    (svals : ℕ → ℕ → (ℕ → ℕ → K) → ℕ → K) (xhist : ℕ → ℕ → K) (xmin : ℕ → K)
    (model_indices : ℕ → ℕ) (minindex : ℕ) (delta c2 theta2 : K)
    (n maxinterp mpoints nhist : ℕ) : Except PErr (AmpOut K) :=
  match ampLoop sqrt qrQ svals xhist xmin delta theta2 n maxinterp
      ((List.range nhist).reverse)
      ⟨fun i j => if j = 0 then 1
         else if i < n + 1 then (xhist (model_indices i) (j - 1) - xmin (j - 1)) / delta
         else 0,
       fun i j => if i < n + 1 then
           (evaluate_phi sqrt (fun t => (xhist (model_indices i) t - xmin t) / delta)
             n).getD j 0
         else 0,
       model_indices, n + 1, none, none⟩ with
  | .error e => .error e
  | .ok s => ampFinish qrQ n s

section AmpLemmas

variable (sqrt : K → K) (qrQ : ℕ → ℕ → (ℕ → ℕ → K) → ℕ → ℕ → K)
  (svals : ℕ → ℕ → (ℕ → ℕ → K) → ℕ → K) (xhist : ℕ → ℕ → K) (xmin : ℕ → K)
  (delta theta2 : K) (n maxinterp : ℕ)

lemma ampLoop_stop : ∀ (ps : List ℕ) (s : AmpState K), maxinterp ≤ s.mpoints →
    ampLoop sqrt qrQ svals xhist xmin delta theta2 n maxinterp ps s = .ok s := by
  intro ps s h
  cases ps with
  | nil => rfl
  | cons p ps => rw [ampLoop, if_neg (by omega)]

lemma ampLoop_stuck (hm : ¬(maxinterp = 7 ∨ maxinterp = 1)) :
    ∀ (ps : List ℕ) (s : AmpState K), s.Q_tmp = none →
      ampLoop sqrt qrQ svals xhist xmin delta theta2 n maxinterp ps s =
          .error .dimMismatch ∨
        ampLoop sqrt qrQ svals xhist xmin delta theta2 n maxinterp ps s = .ok s := by
  intro ps
  induction ps with
  | nil => exact fun s _ => Or.inr rfl
  | cons p ps ih =>
      intro s hq
      by_cases hlt : s.mpoints < maxinterp
      · rw [ampLoop, if_pos hlt]
        by_cases hmem : ∃ t ∈ Finset.range (n + 1), p = s.model_indices t
        · rw [ampBody, if_pos hmem]
          exact ih s hq
        · rw [ampBody, if_neg hmem, if_neg hm]
          exact Or.inl rfl
      · rw [ampLoop, if_neg hlt]
        exact Or.inr rfl

end AmpLemmas

/-- Claim C4: a candidate that reaches the well-poisedness test (it is not one
of the `n+1` affine model points, and the 7×7 broadcast is legal) is accepted
— its index written into `model_indices[mpoints]`, and `mpoints` incremented —
if and only if the selected smallest singular value (`ampTestValue`) exceeds
`theta2`; otherwise the state's `model_indices`/`mpoints` are unchanged and
the scan continues.  The loop stops once `mpoints` reaches `maxinterp`, or
when the candidate list is exhausted. -/
theorem add_more_points_poisedness_guard (sqrt : K → K)
    (qrQ : ℕ → ℕ → (ℕ → ℕ → K) → ℕ → ℕ → K)
    (svals : ℕ → ℕ → (ℕ → ℕ → K) → ℕ → K) (xhist : ℕ → ℕ → K) (xmin : ℕ → K)
    (delta theta2 : K) (n maxinterp : ℕ) :
    (∀ (s : AmpState K) (p : ℕ),
      maxinterp = 7 ∨ maxinterp = 1 →
      ¬(∃ t ∈ Finset.range (n + 1), p = s.model_indices t) →
      ∃ s1, ampBody sqrt qrQ svals xhist xmin delta theta2 n maxinterp s p = .ok s1 ∧
        (theta2 < ampTestValue sqrt qrQ svals xhist xmin delta n maxinterp s p →
          s1.model_indices = Function.update s.model_indices s.mpoints p ∧
          s1.model_indices s.mpoints = p ∧ s1.mpoints = s.mpoints + 1) ∧
        (¬theta2 < ampTestValue sqrt qrQ svals xhist xmin delta n maxinterp s p →
          s1.model_indices = s.model_indices ∧ s1.mpoints = s.mpoints) ∧
        (s1.mpoints = s.mpoints + 1 ↔
          theta2 < ampTestValue sqrt qrQ svals xhist xmin delta n maxinterp s p)) ∧
    (∀ (ps : List ℕ) (s : AmpState K), maxinterp ≤ s.mpoints →
      ampLoop sqrt qrQ svals xhist xmin delta theta2 n maxinterp ps s = .ok s) ∧
    (∀ s : AmpState K,
      ampLoop sqrt qrQ svals xhist xmin delta theta2 n maxinterp [] s = .ok s) := by
  refine ⟨?_, ampLoop_stop sqrt qrQ svals xhist xmin delta theta2 n maxinterp,
    fun s => rfl⟩
  intro s p hm hmem
  by_cases htest : theta2 < ampTestValue sqrt qrQ svals xhist xmin delta n maxinterp s p
  · refine ⟨_, by rw [ampBody, if_neg hmem, if_pos hm, if_pos htest], ?_, ?_, ?_⟩
    · exact fun _ => ⟨rfl, Function.update_same _ _ _, rfl⟩
    · exact fun hc => absurd htest hc
    · exact ⟨fun _ => htest, fun _ => rfl⟩
  · refine ⟨_, by rw [ampBody, if_neg hmem, if_pos hm, if_neg htest], ?_, ?_, ?_⟩
    · exact fun hc => absurd hc htest
    · exact fun _ => ⟨rfl, rfl⟩
    · constructor
      · intro hc
        exact absurd hc (by show ¬s.mpoints = s.mpoints + 1; omega)
      · exact fun hc => absurd hc htest

/-- Claim C2: `improve_model` and `add_more_points` only function when
`n = 3`.  `improve_model` fails in `qr_multiply(qmat, np.eye(3), mode="right")`
(shape mismatch) for every `n ≠ 3`; `add_more_points` with
`maxinterp = 2n + 1` fails for every `n ≠ 3` — with a broadcast shape mismatch
at `Q_tmp[:7, :n+1] = M` as soon as a candidate reaches that line, and with an
undefined-`Q_tmp` `NameError` at the epilogue otherwise. -/
theorem hardcoded_n3_dimensions :
    (∀ (qrQ : ℕ → ℕ → (ℕ → ℕ → K) → ℕ → ℕ → K) (nobs : ℕ)
        (criterion : (ℕ → K) → ℕ → K) (jac_res : ℕ → K) (hess_res : ℕ → ℕ → K)
        (qmat : ℕ → ℕ → K) (minindex addallpoints n : ℕ) (delta : K) (h : Hist K),
      n ≠ 3 →
      improve_model qrQ nobs criterion jac_res hess_res qmat minindex addallpoints n
        delta h = .error .dimMismatch) ∧
    (∀ (sqrt : K → K) (qrQ : ℕ → ℕ → (ℕ → ℕ → K) → ℕ → ℕ → K)
        (svals : ℕ → ℕ → (ℕ → ℕ → K) → ℕ → K) (xhist : ℕ → ℕ → K) (xmin : ℕ → K)
        (model_indices : ℕ → ℕ) (minindex : ℕ) (delta c2 theta2 : K)
        (n mpoints nhist : ℕ),
      n ≠ 3 →
      ∃ e, add_more_points sqrt qrQ svals xhist xmin model_indices minindex delta c2
        theta2 n (2 * n + 1) mpoints nhist = .error e) := by
  constructor
  · intro qrQ nobs criterion jac_res hess_res qmat minindex addallpoints n delta h hn
    rw [improve_model, if_neg hn]
  · intro sqrt qrQ svals xhist xmin model_indices minindex delta c2 theta2 n mpoints
      nhist hn
    by_cases hn0 : n = 0
    · subst hn0
      refine ⟨.nameUndefined, ?_⟩
      rw [add_more_points,
        ampLoop_stop sqrt qrQ svals xhist xmin delta theta2 0 1 _ _ (le_refl 1)]
      rfl
    · have hm : ¬(2 * n + 1 = 7 ∨ 2 * n + 1 = 1) := by omega
      rcases ampLoop_stuck sqrt qrQ svals xhist xmin delta theta2 n (2 * n + 1) hm
          ((List.range nhist).reverse)
          ⟨fun i j => if j = 0 then 1
             else if i < n + 1 then
               (xhist (model_indices i) (j - 1) - xmin (j - 1)) / delta
             else 0,
           fun i j => if i < n + 1 then
               (evaluate_phi sqrt
                 (fun t => (xhist (model_indices i) t - xmin t) / delta) n).getD j 0
             else 0,
           model_indices, n + 1, none, none⟩ rfl with hrun | hrun
      · exact ⟨.dimMismatch, by rw [add_more_points, hrun]⟩
      · exact ⟨.nameUndefined, by rw [add_more_points, hrun]; rfl⟩

/-! ### `get_params_quadratic_model` -/

/-- Inner loop of the Hessian unpacking: `for j in range(i+1, n):
hess[k, j, i] = hess[k, i, j] = beta[num] / sqrt(2); num += 1`. -/
def hessInner (sqrt : K → K) (beta : ℕ → K) (i : ℕ) :
    List ℕ → (ℕ → ℕ → K) × ℕ → (ℕ → ℕ → K) × ℕ
  | [], s => s
  | j :: js, s =>
      hessInner sqrt beta i js
        (setEntry (setEntry s.1 j i (beta s.2 / sqrt 2)) i j (beta s.2 / sqrt 2),
         s.2 + 1)

/-- Outer loop of the Hessian unpacking: `for i in range(n):
hess[k, i, i] = beta[num]; num += 1; <inner>`. -/
def hessOuter (sqrt : K → K) (beta : ℕ → K) (n : ℕ) :
    List ℕ → (ℕ → ℕ → K) × ℕ → (ℕ → ℕ → K) × ℕ
  | [], s => s
  | i :: is, s =>
      hessOuter sqrt beta n is
        (hessInner sqrt beta i (List.range' (i + 1) (n - (i + 1)))
          (setEntry s.1 i i (beta s.2), s.2 + 1))

/-- Unpack the fitted quadratic coefficients `beta` into the symmetric `n×n`
Hessian of one residual component, starting from the zero matrix. -/
def hessUnpack (sqrt : K → K) (n : ℕ) (beta : ℕ → K) : ℕ → ℕ → K :=
  (hessOuter sqrt beta n (List.range n) (fun _ _ => 0, 0)).1

/-- The quadratic coefficients `beta` for component `k`: zero when
`mpoints == n+1`; otherwise `beta = L[:, n+1:mpoints] · omega` with
`omega` solving `(L[:, n+1:mpoints].T · L[:, n+1:mpoints]) · omega =
Z[:mpoints, :].T · res[:mpoints, k]` (`linSolve` is the abstract
`np.linalg.solve` oracle; `lrows` is the number of rows of `L`). -/
def gpBeta (linSolve : ℕ → (ℕ → ℕ → K) → (ℕ → K) → ℕ → K)
    (L Z : ℕ → ℕ → K) (res : ℕ → ℕ → K) (mpoints n lrows k : ℕ) : ℕ → K :=
  if mpoints = n + 1 then fun _ => 0
  else fun j =>
    ∑ a ∈ Finset.range (mpoints - (n + 1)),
      L j (n + 1 + a) *
        linSolve (mpoints - (n + 1))
          (fun a' b' => ∑ i ∈ Finset.range lrows, L i (n + 1 + a') * L i (n + 1 + b'))
          (fun a' => ∑ i ∈ Finset.range mpoints, Z i a' * res i k) a

/-- Embedding of `alpha = np.linalg.solve(M[:n+1, :n+1], rhs[:n+1])` for component `k`,
with `rhs = res[:mpoints, k] - N[:mpoints, :] · beta`. -/
def gpAlpha (linSolve : ℕ → (ℕ → ℕ → K) → (ℕ → K) → ℕ → K)
    (L Z N M : ℕ → ℕ → K) (res : ℕ → ℕ → K) (mpoints n lrows k : ℕ) : ℕ → K :=
  linSolve (n + 1) M
    (fun i => res i k -
      ∑ j ∈ Finset.range (n * (n + 1) / 2),
        N i j * gpBeta linSolve L Z res mpoints n lrows k j)

/-- Embedding of `get_params_quadratic_model(L, Z, N, M, res, mpoints, n, nobs)`: for each
component `k`, the gradient is `alpha[1 : n+1]` and the Hessian is the
symmetric unpacking of `beta`. -/
def get_params_quadratic_model (sqrt : K → K)
    (linSolve : ℕ → (ℕ → ℕ → K) → (ℕ → K) → ℕ → K)
    (L Z N M : ℕ → ℕ → K) (res : ℕ → ℕ → K) (mpoints n nobs lrows : ℕ) :
    (ℕ → ℕ → K) × (ℕ → ℕ → ℕ → K) :=
  (fun k t => gpAlpha linSolve L Z N M res mpoints n lrows k (t + 1),
   fun k => hessUnpack sqrt n (gpBeta linSolve L Z res mpoints n lrows k))

lemma hessInner_zero (sqrt : K → K) (i : ℕ) : ∀ (js : List ℕ) (s : (ℕ → ℕ → K) × ℕ),
    (∀ a b, s.1 a b = 0) →
    ∀ a b, (hessInner sqrt (fun _ => 0) i js s).1 a b = 0 := by
  intro js
  induction js with
  | nil => intro s hs a b; exact hs a b
  | cons j js ih =>
      intro s hs a b
      refine ih _ ?_ a b
      intro a' b'
      by_cases h1 : a' = i ∧ b' = j
      · simp [setEntry, h1, zero_div]
      · by_cases h2 : a' = j ∧ b' = i
        · simp [setEntry, h1, h2, zero_div]
        · simp [setEntry, h1, h2, hs a' b']

lemma hessOuter_zero (sqrt : K → K) (n : ℕ) : ∀ (is : List ℕ) (s : (ℕ → ℕ → K) × ℕ),
    (∀ a b, s.1 a b = 0) →
    ∀ a b, (hessOuter sqrt (fun _ => 0) n is s).1 a b = 0 := by
  intro is
  induction is with
  | nil => intro s hs a b; exact hs a b
  | cons i is ih =>
      intro s hs a b
      refine ih _ ?_ a b
      refine hessInner_zero sqrt i _ _ ?_
      intro a' b'
      by_cases h1 : a' = i ∧ b' = i
      · simp [setEntry, h1]
      · simp [setEntry, h1, hs a' b']

lemma hessUnpack_zero (sqrt : K → K) (n : ℕ) (a b : ℕ) :
    hessUnpack sqrt n (fun _ => 0) a b = 0 :=
  hessOuter_zero sqrt n (List.range n) (fun _ _ => 0, 0) (fun _ _ => rfl) a b

lemma ampFinish_ok_L (qrQ : ℕ → ℕ → (ℕ → ℕ → K) → ℕ → ℕ → K) (n : ℕ)
    (s : AmpState K) (r : AmpOut K) (h : ampFinish qrQ n s = .ok r)
    (hmp : r.mpoints = n + 1) : r.L = ampLdefault n := by
  rcases hq : s.Q_tmp with _ | Qt
  · replace h : (Except.error .nameUndefined : Except PErr (AmpOut K)) = .ok r := by
      rw [ampFinish, hq] at h
      exact h
    exact Except.noConfusion h
  · replace h : (if s.mpoints = n + 1 then
        (.ok ⟨ampLdefault n, ampZ qrQ n s.mpoints Qt, s.N, s.M, s.mpoints,
          s.model_indices⟩ : Except PErr (AmpOut K))
      else ampLread qrQ n s Qt) = .ok r := by
      rw [ampFinish, hq] at h
      exact h
    by_cases hsm : s.mpoints = n + 1
    · rw [if_pos hsm] at h
      injection h with h1
      rw [← h1]
    · rw [if_neg hsm] at h
      rcases hl : s.L with _ | L0
      · replace h : (Except.error .nameUndefined : Except PErr (AmpOut K)) = .ok r := by
          rw [ampLread, hl] at h
          exact h
        exact Except.noConfusion h
      · replace h : (Except.ok ⟨L0, ampZ qrQ n s.mpoints Qt, s.N, s.M, s.mpoints,
            s.model_indices⟩ : Except PErr (AmpOut K)) = .ok r := by
          rw [ampLread, hl] at h
          exact h
        injection h with h1
        rw [← h1] at hmp
        exact absurd hmp hsm

/-- Claim C7: when no extra point beyond the affine set is accepted
(`mpoints == n+1` on return), `add_more_points` returns `L` as the zero matrix
with identity leading `n×n` block, and `get_params_quadratic_model` with
`mpoints == n+1` uses zero quadratic coefficients: every component Hessian is
the zero matrix, and the gradient row is `alpha[1 : n+1]` from solving the
affine system against the raw residual column alone. -/
theorem affine_degenerate_model :
    (∀ (sqrt : K → K) (qrQ : ℕ → ℕ → (ℕ → ℕ → K) → ℕ → ℕ → K)
        (svals : ℕ → ℕ → (ℕ → ℕ → K) → ℕ → K) (xhist : ℕ → ℕ → K) (xmin : ℕ → K)
        (model_indices : ℕ → ℕ) (minindex : ℕ) (delta c2 theta2 : K)
        (n maxinterp mpoints nhist : ℕ) (r : AmpOut K),
      add_more_points sqrt qrQ svals xhist xmin model_indices minindex delta c2
        theta2 n maxinterp mpoints nhist = .ok r →
      r.mpoints = n + 1 →
      r.L = ampLdefault n) ∧
    (∀ (sqrt : K → K) (linSolve : ℕ → (ℕ → ℕ → K) → (ℕ → K) → ℕ → K)
        (L Z N M res : ℕ → ℕ → K) (mpoints n nobs lrows : ℕ),
      mpoints = n + 1 →
      (∀ k i j,
        (get_params_quadratic_model sqrt linSolve L Z N M res mpoints n nobs
          lrows).2 k i j = 0) ∧
      (∀ k t,
        (get_params_quadratic_model sqrt linSolve L Z N M res mpoints n nobs
          lrows).1 k t = linSolve (n + 1) M (fun i => res i k) (t + 1))) := by
  constructor
  · intro sqrt qrQ svals xhist xmin model_indices minindex delta c2 theta2 n
      maxinterp mpoints nhist r hok hmp
    rcases hre : ampLoop sqrt qrQ svals xhist xmin delta theta2 n maxinterp
        ((List.range nhist).reverse)
        ⟨fun i j => if j = 0 then 1
           else if i < n + 1 then
             (xhist (model_indices i) (j - 1) - xmin (j - 1)) / delta
           else 0,
         fun i j => if i < n + 1 then
             (evaluate_phi sqrt
               (fun t => (xhist (model_indices i) t - xmin t) / delta) n).getD j 0
           else 0,
         model_indices, n + 1, none, none⟩ with e | s
    · rw [add_more_points, hre] at hok
      exact Except.noConfusion hok
    · rw [add_more_points, hre] at hok
      exact ampFinish_ok_L qrQ n s r hok hmp
  · intro sqrt linSolve L Z N M res mpoints n nobs lrows hmp
    have hbeta : gpBeta linSolve L Z res mpoints n lrows = fun k _ => 0 := by
      funext k j
      rw [gpBeta, if_pos hmp]
    constructor
    · intro k i j
      show hessUnpack sqrt n (gpBeta linSolve L Z res mpoints n lrows k) i j = 0
      rw [show gpBeta linSolve L Z res mpoints n lrows k = fun _ => 0 from
        congrFun hbeta k]
      exact hessUnpack_zero sqrt n i j
    · intro k t
      show gpAlpha linSolve L Z N M res mpoints n lrows k (t + 1) = _
      rw [gpAlpha]
      have hrhs : (fun i => res i k -
          ∑ j ∈ Finset.range (n * (n + 1) / 2),
            N i j * gpBeta linSolve L Z res mpoints n lrows k j) =
          fun i => res i k := by
        funext i
        rw [show gpBeta linSolve L Z res mpoints n lrows k = fun _ => 0 from
          congrFun hbeta k]
        simp
      rw [hrhs]

/-- Concrete history exhibiting the dead distance check: four affine model
points (rows 0–3) and one candidate (row 4) at scaled distance far beyond
`c2 = 10` from `xmin = xhist[0] = 0`. -/
def farHist : ℕ → ℕ → ℚ :=
  fun i j => if i = 4 then (if j = 0 then 100 else 0)
  else if i = 0 then 0
  else if j + 1 = i then 1 else 0

/-- Initial model index set for the `farHist` run: slots 0–3 hold history
points 0–3; the sentinel 9 in later slots shows whether they are written. -/
def farIdx : ℕ → ℕ := fun t => if t < 4 then t else 9

/-- Claim C1 is violated by the code: the candidate `farHist` row 4 has scaled
distance `> c2 = 10` from `xmin`, yet `add_more_points` records it in
`model_indices[4]` and counts it in `mpoints` (with a poisedness oracle value
`1 > theta2 = 0`), because the `reject = 1` set by the distance check is never
read again. -/
theorem add_more_points_accepts_far_point :
    (10 : ℚ) < vnorm id (fun j => farHist 4 j - farHist 0 j) 0 3 / 1 ∧
    (add_more_points (K := ℚ) id (fun _ _ _ => fun _ _ => 0) (fun _ _ _ _ => 1)
        farHist (fun _ => 0) farIdx 0 1 10 0 3 7 4 5).map
      (fun r => (r.mpoints, r.model_indices 4)) = .ok (5, 4) := by
  constructor
  · show (10 : ℚ) <
      id (∑ j ∈ Finset.Ico 0 3,
        (farHist 4 j - farHist 0 j) * (farHist 4 j - farHist 0 j)) / 1
    rw [← Finset.range_eq_Ico]
    norm_num [Finset.sum_range_succ, farHist]
  · rfl

/-! ### Concrete witnesses -/

theorem add_point_append_witness :
    ((⟨fun _ _ => 0, fun _ _ => 0, fun _ => 0, fun _ => 0, 0, 1⟩ : Hist ℚ).nhist < 1000 ∧
     ∃ r : Hist ℚ × (ℕ → ℚ),
       add_point (K := ℚ) 1 (fun _ => fun _ => 0) (fun _ _ => 0) 0 0 1
         ⟨fun _ _ => 0, fun _ _ => 0, fun _ => 0, fun _ => 0, 0, 1⟩ = .ok r ∧
       r.1.nhist = 2) ∧
    add_point (K := ℚ) 1 (fun _ => fun _ => 0) (fun _ _ => 0) 0 0 1
      ⟨fun _ _ => 0, fun _ _ => 0, fun _ => 0, fun _ => 0, 0, 1000⟩ =
      .error .historyExhausted := by
  constructor
  · refine ⟨by decide, ?_⟩
    obtain ⟨r, hr, -, -, -, -, -, -, hn⟩ :=
      (add_point_append (K := ℚ) 1 (fun _ => fun _ => 0) (fun _ _ => 0) 0 0 1
        ⟨fun _ _ => 0, fun _ _ => 0, fun _ => 0, fun _ => 0, 0, 1⟩).1
        (by decide) (by decide)
    exact ⟨r, hr, by rw [hn]⟩
  · exact (add_point_append (K := ℚ) 1 (fun _ => fun _ => 0) (fun _ _ => 0) 0 0 1
      ⟨fun _ _ => 0, fun _ _ => 0, fun _ => 0, fun _ => 0, 0, 1000⟩).2 (by decide)

theorem improve_model_criterion_calls_witness :
    ((⟨fun _ _ => 0, fun _ _ => 0, fun _ => 0, fun _ => 0, 2, 1⟩ : Hist ℚ).mpoints < 3 ∧
     ∃ r : ImpState ℚ,
       improve_model (K := ℚ) (fun _ _ _ => fun _ _ => 0) 1 (fun _ => fun _ => 0) (fun _ => 0)
         (fun _ _ => 0) (fun _ _ => 0) 0 0 3 1
         ⟨fun _ _ => 0, fun _ _ => 0, fun _ => 0, fun _ => 0, 2, 1⟩ = .ok r ∧
       r.hist.nhist = 2) ∧
    ∃ r : ImpState ℚ,
      improve_model (K := ℚ) (fun _ _ _ => fun _ _ => 0) 1 (fun _ => fun _ => 0) (fun _ => 0)
        (fun _ _ => 0) (fun _ _ => 0) 0 1 3 1
        ⟨fun _ _ => 0, fun _ _ => 0, fun _ => 0, fun _ => 0, 2, 1⟩ = .ok r ∧
      r.calls.length = 1 := by
  constructor
  · refine ⟨by decide, ?_⟩
    obtain ⟨r, hok, -, -, -, -, -, hnh, -, -⟩ :=
      (improve_model_criterion_calls (K := ℚ) (fun _ _ _ => fun _ _ => 0) 1
        (fun _ => fun _ => 0) (fun _ => 0) (fun _ _ => 0) (fun _ _ => 0) 0 3 1
        ⟨fun _ _ => 0, fun _ _ => 0, fun _ => 0, fun _ => 0, 2, 1⟩ rfl (by decide)
        (by decide) (by decide)).1
    exact ⟨r, hok, by rw [hnh]⟩
  · obtain ⟨r, hok, hlen, -, -, -⟩ :=
      (improve_model_criterion_calls (K := ℚ) (fun _ _ _ => fun _ _ => 0) 1
        (fun _ => fun _ => 0) (fun _ => 0) (fun _ _ => 0) (fun _ _ => 0) 0 3 1
        ⟨fun _ _ => 0, fun _ _ => 0, fun _ => 0, fun _ => 0, 2, 1⟩ rfl (by decide)
        (by decide) (by decide)).2 1 (by decide)
    exact ⟨r, hok, by rw [hlen]; decide⟩

theorem add_more_points_poisedness_guard_witness :
    ¬(∃ t ∈ Finset.range (3 + 1), 4 = farIdx t) ∧
    ∃ s1 : AmpState ℚ,
      ampBody (K := ℚ) id (fun _ _ _ => fun _ _ => 0) (fun _ _ _ _ => 1) farHist (fun _ => 0)
        1 0 3 7 ⟨fun _ _ => 0, fun _ _ => 0, farIdx, 4, none, none⟩ 4 = .ok s1 ∧
      s1.mpoints = 5 := by
  have hmem : ¬(∃ t ∈ Finset.range (3 + 1), 4 =
      (⟨fun _ _ => 0, fun _ _ => 0, farIdx, 4, none, none⟩ :
        AmpState ℚ).model_indices t) := by
    decide
  refine ⟨hmem, ?_⟩
  obtain ⟨s1, hok, hacc, -, -⟩ :=
    (add_more_points_poisedness_guard (K := ℚ) id (fun _ _ _ => fun _ _ => 0)
      (fun _ _ _ _ => 1) farHist (fun _ => 0) 1 0 3 7).1
      ⟨fun _ _ => 0, fun _ _ => 0, farIdx, 4, none, none⟩ 4 (Or.inl rfl) hmem
  have htv : (0 : ℚ) < ampTestValue (K := ℚ) id (fun _ _ _ => fun _ _ => 0)
      (fun _ _ _ _ => 1) farHist (fun _ => 0) 1 3 7
      ⟨fun _ _ => 0, fun _ _ => 0, farIdx, 4, none, none⟩ 4 := by
    show (0 : ℚ) < 1
    norm_num
  exact ⟨s1, hok, (hacc htv).2.2⟩

theorem hardcoded_n3_dimensions_witness :
    (2 : ℕ) ≠ 3 ∧
    improve_model (K := ℚ) (fun _ _ _ => fun _ _ => 0) 1 (fun _ => fun _ => 0)
      (fun _ => 0) (fun _ _ => 0) (fun _ _ => 0) 0 0 2 1
      ⟨fun _ _ => 0, fun _ _ => 0, fun _ => 0, fun _ => 0, 1, 2⟩ =
      .error .dimMismatch ∧
    ∃ e, add_more_points (K := ℚ) id (fun _ _ _ => fun _ _ => 0) (fun _ _ _ _ => 1)
      farHist (fun _ => 0) farIdx 0 1 10 0 2 (2 * 2 + 1) 4 5 = .error e := by
  refine ⟨by decide, ?_, ?_⟩
  · exact (hardcoded_n3_dimensions (K := ℚ)).1 (fun _ _ _ => fun _ _ => 0) 1
      (fun _ => fun _ => 0) (fun _ => 0) (fun _ _ => 0) (fun _ _ => 0) 0 0 2 1
      ⟨fun _ _ => 0, fun _ _ => 0, fun _ => 0, fun _ => 0, 1, 2⟩ (by decide)
  · exact (hardcoded_n3_dimensions (K := ℚ)).2 id (fun _ _ _ => fun _ _ => 0)
      (fun _ _ _ _ => 1) farHist (fun _ => 0) farIdx 0 1 10 0 2 4 5 (by decide)

theorem affine_degenerate_model_witness :
    (∃ r : AmpOut ℚ,
      add_more_points (K := ℚ) id (fun _ _ _ => fun _ _ => 0) (fun _ _ _ _ => 0) farHist
        (fun _ => 0) farIdx 0 1 10 1 3 7 4 5 = .ok r ∧ r.L = ampLdefault 3) ∧
    (get_params_quadratic_model (K := ℚ) id (fun _ _ _ _ => 0) (fun _ _ => 0)
      (fun _ _ => 0) (fun _ _ => 0) (fun _ _ => 0) (fun _ _ => 0) 4 3 1 7).2 0 0 0 =
      0 := by
  constructor
  · have hmp4 : (add_more_points (K := ℚ) id (fun _ _ _ => fun _ _ => 0)
        (fun _ _ _ _ => 0) farHist (fun _ => 0) farIdx 0 1 10 1 3 7 4 5).map
        (fun r => r.mpoints) = .ok 4 := rfl
    cases hre : add_more_points (K := ℚ) id (fun _ _ _ => fun _ _ => 0)
        (fun _ _ _ _ => 0) farHist (fun _ => 0) farIdx 0 1 10 1 3 7 4 5 with
    | error e =>
        rw [hre] at hmp4
        exact Except.noConfusion hmp4
    | ok r =>
        have hm : r.mpoints = 3 + 1 := by
          rw [hre] at hmp4
          injection hmp4
        exact ⟨r, rfl, (affine_degenerate_model (K := ℚ)).1 id (fun _ _ _ => fun _ _ => 0)
          (fun _ _ _ _ => 0) farHist (fun _ => 0) farIdx 0 1 10 1 3 7 4 5 r hre hm⟩
  · exact ((affine_degenerate_model (K := ℚ)).2 id (fun _ _ _ _ => 0) (fun _ _ => 0)
      (fun _ _ => 0) (fun _ _ => 0) (fun _ _ => 0) (fun _ _ => 0) 4 3 1 7 rfl).1 0 0 0

theorem find_nearby_points_newest_wins_witness :
    vnorm (K := ℚ) id (fun j => ((if 1 = 1 ∧ j = 0 then 1 else 0) - 0) / 1) 0 2 ≤
      10 ∧
    (find_nearby_points (K := ℚ) id (fun _ _ _ => fun _ _ => 0)
        (fun i j => if i = 1 ∧ j = 0 then 1 else 0) (fun _ => 0) (fun _ _ => 0) 1
        1 1 10 (fun _ => 5) 2 0 2).model_indices 0 = 1 := by
  have hball : vnorm (K := ℚ) id
      (fun j => ((if 1 = 1 ∧ j = 0 then 1 else 0) - 0) / 1) 0 2 ≤ 10 := by
    rw [vnorm, ← Finset.range_eq_Ico]
    norm_num [Finset.sum_range_succ]
  have hacc : (1 : ℚ) ≤ vnorm id (fnpXkPlus (fun _ _ _ => fun _ _ => 0)
      (fun i j => if i = 1 ∧ j = 0 then (1 : ℚ) else 0) (fun _ => 0) 1 2
      ⟨fun _ _ => 0, fun _ => 5, 0, 1, false⟩ 1) 0 2 := by
    show (1 : ℚ) ≤ vnorm id
      (fun j => ((if 1 = 1 ∧ j = 0 then (1 : ℚ) else 0) - 0) / 1) 0 2
    rw [vnorm, ← Finset.range_eq_Ico]
    norm_num [Finset.sum_range_succ]
  refine ⟨hball, ?_⟩
  exact find_nearby_points_newest_wins (K := ℚ) id (fun _ _ _ => fun _ _ => 0)
    (fun i j => if i = 1 ∧ j = 0 then 1 else 0) (fun _ => 0) (fun _ _ => 0) 1
    1 1 10 (fun _ => 5) 2 0 2 1 ⟨fun _ _ => 0, fun _ => 5, 0, 1, false⟩
    (by decide) rfl rfl hball hacc

theorem find_nearby_points_mpoints_le_witness :
    (0 : ℚ) < 1 ∧
    (find_nearby_points (K := ℚ) id (fun _ _ _ => fun _ _ => 0) (fun _ _ => 0)
        (fun _ => 0) (fun _ _ => 0) 1 1 1 10 (fun _ => 5) 1 1 1).mpoints ≤ 1 ∧
    ∀ k, 1 ≤ k →
      (find_nearby_points (K := ℚ) id (fun _ _ _ => fun _ _ => 0) (fun _ _ => 0)
        (fun _ => 0) (fun _ _ => 0) 1 1 1 10 (fun _ => 5) 1 1 1).model_indices k =
        (fun _ => 5) k := by
  refine ⟨by norm_num, ?_, ?_⟩
  · exact (find_nearby_points_mpoints_le (K := ℚ) id (fun _ _ _ => fun _ _ => 0)
      (fun _ _ => 0) (fun _ => 0) (fun _ _ => 0) 1 1 1 10 (fun _ => 5) 1 1 1 rfl
      (by norm_num) (le_refl 1)).1
  · exact (find_nearby_points_mpoints_le (K := ℚ) id (fun _ _ _ => fun _ _ => 0)
      (fun _ _ => 0) (fun _ => 0) (fun _ _ => 0) 1 1 1 10 (fun _ => 5) 1 1 1 rfl
      (by norm_num) (le_refl 1)).2

end Pounders
